import Mathlib

/-!
Verification development for the generic tree-sitter symbol extraction core
(parser/extractor.py, parser/symbols.py, parser/languages.py,
parser/hierarchy.py).

Modelling conventions:

* The parsed syntax tree is supplied by an external parsing component (spec
  section 1 and 6); we embed its node interface (type tag, named flag, error
  flag, byte/row spans, named-field lookup, positional children) as the
  inductive `TSNode`.  Sibling navigation (`prev_named_sibling`) is modelled
  by threading the list of preceding siblings through the traversal, which is
  how the walker reaches every node.
* Source text: the main embedding works over `List Char`, one `Char` per
  byte (ASCII sources), so Python's `source_bytes[a:b].decode("utf-8")` is
  the slice `sliceL`.  A separate byte-accurate model with a real UTF-8
  decoder (`utf8Decode`) is used for the decoding-failure claim; there the
  source is a `List Nat` of bytes and decoding is fallible.
* Python `str` operations (`strip`, `rstrip`, `startswith`, slicing, split,
  join) are re-implemented on `List Char` by structural recursion so that
  everything evaluates inside the kernel.
* Dataclasses become structures; dictionaries become association lists with
  first-match lookup (keys are distinct in every language table).
-/

namespace JCM

/-! ## Python string primitives over `List Char` (one `Char` per byte) -/

/-- Python's whitespace set for `str.strip` (ASCII). -/
def pyspace (c : Char) : Bool :=
  c == ' ' || c == '\t' || c == '\n' || c == '\r' || c == '\x0b' || c == '\x0c'

/-- Python `str.strip()`: drop leading and trailing whitespace. -/
def stripChars (s : List Char) : List Char :=
  ((s.dropWhile pyspace).reverse.dropWhile pyspace).reverse

/-- Python `str.rstrip(set)`: drop trailing characters in `set`. -/
def rstripSet (set : List Char) (s : List Char) : List Char :=
  (s.reverse.dropWhile (fun c => set.contains c)).reverse

/-- Python `str.startswith`. -/
def startsWithL : List Char → List Char → Bool
  | [], _ => true
  | _ :: _, [] => false
  | p :: ps, c :: cs => p == c && startsWithL ps cs

/-- Python `str.endswith`. -/
def endsWithL (p s : List Char) : Bool :=
  startsWithL p.reverse s.reverse

/-- Python `s[n:]` is `List.drop`; `s[:-n]` is `dropRightL n`. -/
def dropRightL (n : Nat) (s : List Char) : List Char :=
  (s.reverse.drop n).reverse

/-- Python `source[a:b]` on a byte buffer (exclusive upper bound). -/
def sliceL (source : List Char) (a b : Nat) : List Char :=
  (source.drop a).take (b - a)

/-- Python `text.split("\n")`. -/
def splitLinesL : List Char → List (List Char)
  | [] => [[]]
  | c :: rest =>
    match splitLinesL rest with
    | l :: ls => if c == '\n' then [] :: l :: ls else (c :: l) :: ls
    | [] => [[c]]

/-- Python `"\n".join` on raw character lines. -/
def intercalateNlL : List (List Char) → List Char
  | [] => []
  | [x] => x
  | x :: y :: rest => x ++ '\n' :: intercalateNlL (y :: rest)

/-- Python `"\n".join` on strings. -/
def joinWithNewline : List String → String
  | [] => ""
  | [x] => x
  | x :: y :: rest => x ++ "\n" ++ joinWithNewline (y :: rest)

/-- Python `str.isupper()` for ASCII text: at least one cased (alphabetic)
character, and no cased character is lower-case. -/
def pyIsUpperL (s : List Char) : Bool :=
  s.any (fun c => c.isAlpha) && s.all (fun c => !c.isAlpha || c.isUpper)

/-- First-match association-list lookup, the embedding of a Python `dict`
with distinct keys (`d[k]` / `k in d` / `d.get(k)`). -/
def lookupKV {α : Type} : List (String × α) → String → Option α
  | [], _ => none
  | (k, v) :: rest, key => if k == key then some v else lookupKV rest key

/-- Key membership in an association list (`k in d`). -/
def memKV {α : Type} (m : List (String × α)) (key : String) : Bool :=
  (lookupKV m key).isSome

/-! ## The external parser's node interface (spec section 6)

A node exposes a type tag, a named flag, an error flag, byte offsets, row
numbers, named-field children and positional children in document order.
`TSAttrs` is the field table, `TSList` the positional child list; they are
mutually inductive with `TSNode` so that all traversals are structural. -/

mutual

inductive TSNode where
  | mk (ntype : String) (named : Bool) (hasError : Bool)
       (startByte endByte startRow endRow : Nat)
       (fields : TSAttrs) (children : TSList)

inductive TSAttrs where
  | anil
  | acons (fname : String) (fnode : TSNode) (ftail : TSAttrs)

inductive TSList where
  | tnil
  | tcons (thead : TSNode) (ttail : TSList)

end

def TSNode.ntype : TSNode → String
  | .mk t _ _ _ _ _ _ _ _ => t

def TSNode.named : TSNode → Bool
  | .mk _ nm _ _ _ _ _ _ _ => nm

def TSNode.hasError : TSNode → Bool
  | .mk _ _ he _ _ _ _ _ _ => he

def TSNode.startByte : TSNode → Nat
  | .mk _ _ _ sb _ _ _ _ _ => sb

def TSNode.endByte : TSNode → Nat
  | .mk _ _ _ _ eb _ _ _ _ => eb

def TSNode.startRow : TSNode → Nat
  | .mk _ _ _ _ _ sr _ _ _ => sr

def TSNode.endRow : TSNode → Nat
  | .mk _ _ _ _ _ _ er _ _ => er

def TSNode.fields : TSNode → TSAttrs
  | .mk _ _ _ _ _ _ _ fs _ => fs

def TSNode.children : TSNode → TSList
  | .mk _ _ _ _ _ _ _ _ cs => cs

def TSAttrs.find : TSAttrs → String → Option TSNode
  | .anil, _ => none
  | .acons k v rest, f => if k == f then some v else rest.find f

/-- tree-sitter `node.child_by_field_name(f)`. -/
def child_by_field_name (n : TSNode) (f : String) : Option TSNode :=
  n.fields.find f

def TSList.toList : TSList → List TSNode
  | .tnil => []
  | .tcons c cs => c :: cs.toList

def TSList.isNil : TSList → Bool
  | .tnil => true
  | .tcons _ _ => false

/-! ## Language specification registry (languages.py) -/

structure LanguageSpec where
  ts_language : String
  symbol_node_types : List (String × String)
  name_fields : List (String × String)
  param_fields : List (String × String)
  return_type_fields : List (String × String)
  docstring_strategy : String
  decorator_node_type : Option String
  container_node_types : List String
  constant_patterns : List String
  type_patterns : List String

def PYTHON_SPEC : LanguageSpec :=
  { ts_language := "python"
    symbol_node_types := [("function_definition", "function"), ("class_definition", "class")]
    name_fields := [("function_definition", "name"), ("class_definition", "name")]
    param_fields := [("function_definition", "parameters")]
    return_type_fields := [("function_definition", "return_type")]
    docstring_strategy := "next_sibling_string"
    decorator_node_type := some "decorator"
    container_node_types := ["class_definition"]
    constant_patterns := ["assignment"]
    type_patterns := ["type_alias_statement"] }

def JAVASCRIPT_SPEC : LanguageSpec :=
  { ts_language := "javascript"
    symbol_node_types :=
      [("function_declaration", "function"), ("class_declaration", "class"),
       ("method_definition", "method"), ("arrow_function", "function"),
       ("generator_function_declaration", "function")]
    name_fields :=
      [("function_declaration", "name"), ("class_declaration", "name"),
       ("method_definition", "name")]
    param_fields :=
      [("function_declaration", "parameters"), ("method_definition", "parameters"),
       ("arrow_function", "parameters")]
    return_type_fields := []
    docstring_strategy := "preceding_comment"
    decorator_node_type := none
    container_node_types := ["class_declaration", "class"]
    constant_patterns := ["lexical_declaration"]
    type_patterns := [] }

def TYPESCRIPT_SPEC : LanguageSpec :=
  { ts_language := "typescript"
    symbol_node_types :=
      [("function_declaration", "function"), ("class_declaration", "class"),
       ("method_definition", "method"), ("arrow_function", "function"),
       ("interface_declaration", "type"), ("type_alias_declaration", "type"),
       ("enum_declaration", "type")]
    name_fields :=
      [("function_declaration", "name"), ("class_declaration", "name"),
       ("method_definition", "name"), ("interface_declaration", "name"),
       ("type_alias_declaration", "name"), ("enum_declaration", "name")]
    param_fields :=
      [("function_declaration", "parameters"), ("method_definition", "parameters"),
       ("arrow_function", "parameters")]
    return_type_fields :=
      [("function_declaration", "return_type"), ("method_definition", "return_type"),
       ("arrow_function", "return_type")]
    docstring_strategy := "preceding_comment"
    decorator_node_type := some "decorator"
    container_node_types := ["class_declaration", "class"]
    constant_patterns := ["lexical_declaration"]
    type_patterns := ["interface_declaration", "type_alias_declaration", "enum_declaration"] }

def GO_SPEC : LanguageSpec :=
  { ts_language := "go"
    symbol_node_types :=
      [("function_declaration", "function"), ("method_declaration", "method"),
       ("type_declaration", "type")]
    name_fields :=
      [("function_declaration", "name"), ("method_declaration", "name"),
       ("type_declaration", "name")]
    param_fields :=
      [("function_declaration", "parameters"), ("method_declaration", "parameters")]
    return_type_fields :=
      [("function_declaration", "result"), ("method_declaration", "result")]
    docstring_strategy := "preceding_comment"
    decorator_node_type := none
    container_node_types := []
    constant_patterns := ["const_declaration"]
    type_patterns := ["type_declaration"] }

def RUST_SPEC : LanguageSpec :=
  { ts_language := "rust"
    symbol_node_types :=
      [("function_item", "function"), ("struct_item", "type"), ("enum_item", "type"),
       ("trait_item", "type"), ("impl_item", "class"), ("type_item", "type")]
    name_fields :=
      [("function_item", "name"), ("struct_item", "name"), ("enum_item", "name"),
       ("trait_item", "name"), ("type_item", "name")]
    param_fields := [("function_item", "parameters")]
    return_type_fields := [("function_item", "return_type")]
    docstring_strategy := "preceding_comment"
    decorator_node_type := some "attribute_item"
    container_node_types := ["impl_item", "trait_item"]
    constant_patterns := ["const_item", "static_item"]
    type_patterns := ["struct_item", "enum_item", "trait_item", "type_item"] }

def JAVA_SPEC : LanguageSpec :=
  { ts_language := "java"
    symbol_node_types :=
      [("method_declaration", "method"), ("constructor_declaration", "method"),
       ("class_declaration", "class"), ("interface_declaration", "type"),
       ("enum_declaration", "type")]
    name_fields :=
      [("method_declaration", "name"), ("constructor_declaration", "name"),
       ("class_declaration", "name"), ("interface_declaration", "name"),
       ("enum_declaration", "name")]
    param_fields :=
      [("method_declaration", "parameters"), ("constructor_declaration", "parameters")]
    return_type_fields := [("method_declaration", "type")]
    docstring_strategy := "preceding_comment"
    decorator_node_type := some "marker_annotation"
    container_node_types := ["class_declaration", "interface_declaration", "enum_declaration"]
    constant_patterns := ["field_declaration"]
    type_patterns := ["interface_declaration", "enum_declaration"] }

def LANGUAGE_REGISTRY : List (String × LanguageSpec) :=
  [("python", PYTHON_SPEC), ("javascript", JAVASCRIPT_SPEC), ("typescript", TYPESCRIPT_SPEC),
   ("go", GO_SPEC), ("rust", RUST_SPEC), ("java", JAVA_SPEC)]

/-! ## Symbol record and id utilities (symbols.py) -/

structure Symbol where
  id : String
  file : String
  name : String
  qualified_name : String
  kind : String
  language : String
  signature : String
  docstring : String := ""
  summary : String := ""
  decorators : List String := []
  keywords : List String := []
  parent : Option String := none
  line : Nat := 0
  end_line : Nat := 0
  byte_offset : Nat := 0
  byte_length : Nat := 0
deriving DecidableEq

/-- Replace `/` with `-` and `.` with `-` for use in symbol ids. -/
def slugify (text : String) : String :=
  String.mk (text.data.map (fun c => if c == '/' then '-' else if c == '.' then '-' else c))

/-- Generate the symbol id, format `{file_slug}::{qualified_name}`. -/
def make_symbol_id (file_path : String) (qualified_name : String) : String :=
  slugify file_path ++ "::" ++ qualified_name

/-! ## Extraction strategies (extractor.py) -/

/-- `_strip_quotes`: strip a matching pair of surrounding quote delimiters
(triple-double, triple-single, double, single, in that priority order). -/
def strip_quotes (text : String) : String :=
  let t := stripChars text.data
  if startsWithL ['"', '"', '"'] t && endsWithL ['"', '"', '"'] t then
    String.mk (stripChars (dropRightL 3 (t.drop 3)))
  else if startsWithL ['\'', '\'', '\''] t && endsWithL ['\'', '\'', '\''] t then
    String.mk (stripChars (dropRightL 3 (t.drop 3)))
  else if startsWithL ['"'] t && endsWithL ['"'] t then
    String.mk (stripChars (dropRightL 1 (t.drop 1)))
  else if startsWithL ['\''] t && endsWithL ['\''] t then
    String.mk (stripChars (dropRightL 1 (t.drop 1)))
  else
    String.mk t

/-- One line of `_clean_comment_markers`: strip, remove a leading comment
marker (the branch order is the code's, including the unreachable
`//!` branch after `//`), remove a trailing `*/`, strip again. -/
def cleanMarkerLine (line0 : List Char) : List Char :=
  let line := stripChars line0
  let line :=
    if startsWithL ['/', '*', '*'] line then line.drop 3
    else if startsWithL ['/', '*'] line then line.drop 2
    else if startsWithL ['/', '/', '/'] line then line.drop 3
    else if startsWithL ['/', '/'] line then line.drop 2
    else if startsWithL ['/', '/', '!'] line then line.drop 3
    else if startsWithL ['*'] line then line.drop 1
    else line
  let line := if endsWithL ['*', '/'] line then dropRightL 2 line else line
  stripChars line

/-- `_clean_comment_markers`: clean every line, rejoin, strip. -/
def clean_comment_markers (text : String) : String :=
  String.mk (stripChars (intercalateNlL ((splitLinesL text.data).map cleanMarkerLine)))

/-- `_extract_name`: special cases for anonymous arrow functions and Go
`type_declaration` wrappers, then the `name_fields` table lookup. -/
def extract_name (node : TSNode) (spec : LanguageSpec) (source : List Char) : Option String :=
  if node.ntype == "arrow_function" then none
  else if node.ntype == "type_declaration" then
    match node.children.toList.find?
        (fun c => c.ntype == "type_spec" && (child_by_field_name c "name").isSome) with
    | some child =>
      match child_by_field_name child "name" with
      | some nn => some (String.mk (sliceL source nn.startByte nn.endByte))
      | none => none
    | none => none
  else
    match lookupKV spec.name_fields node.ntype with
    | none => none
    | some f =>
      match child_by_field_name node f with
      | some nn => some (String.mk (sliceL source nn.startByte nn.endByte))
      | none => none

/-- `_build_signature`: the source text from the node's start to the start of
its `body` field (or to the node's end), stripped, with trailing
`{`, `:` and whitespace removed. -/
def build_signature (node : TSNode) (spec : LanguageSpec) (source : List Char) : String :=
  let endB :=
    match child_by_field_name node "body" with
    | some body => body.startByte
    | none => node.endByte
  String.mk (rstripSet ['{', ':', ' ', '\n', '\t'] (stripChars (sliceL source node.startByte endB)))

/-- The inner checks of `_extract_python_docstring` for one
`expression_statement` body child: the `expression` field form, then the
tree-sitter-python 0.21+ first-child form. -/
def exprStmtString (source : List Char) (child : TSNode) : Option String :=
  let viaField :=
    match child_by_field_name child "expression" with
    | some expr =>
      if expr.ntype == "string" then
        some (strip_quotes (String.mk (sliceL source expr.startByte expr.endByte)))
      else none
    | none => none
  match viaField with
  | some d => some d
  | none =>
    match child.children.toList with
    | [] => none
    | first :: _ =>
      if first.ntype == "string" || first.ntype == "concatenated_string" then
        some (strip_quotes (String.mk (sliceL source first.startByte first.endByte)))
      else none

/-- The body-children loop of `_extract_python_docstring`: return on the
first string-bearing `expression_statement` or bare `string` child,
continue past anything else. -/
def docstringFromChildren (source : List Char) : List TSNode → Option String
  | [] => none
  | child :: rest =>
    if child.ntype == "expression_statement" then
      match exprStmtString source child with
      | some d => some d
      | none => docstringFromChildren source rest
    else if child.ntype == "string" then
      some (strip_quotes (String.mk (sliceL source child.startByte child.endByte)))
    else docstringFromChildren source rest

/-- `_extract_python_docstring`. -/
def extract_python_docstring (node : TSNode) (source : List Char) : String :=
  match child_by_field_name node "body" with
  | none => ""
  | some body =>
    if body.children.isNil then ""
    else
      match docstringFromChildren source body.children.toList with
      | some d => d
      | none => ""

/-- Comment node types accepted by `_extract_preceding_comments`. -/
def isCommentType (n : TSNode) : Bool :=
  n.ntype == "comment" || n.ntype == "line_comment" || n.ntype == "block_comment"

/-- `_extract_preceding_comments`: walk backwards through preceding named
siblings while they are comments, collect in source order, clean markers.
`prevSibs` is the node's full preceding-sibling list in document order. -/
def extract_preceding_comments (source : List Char) (prevSibs : List TSNode) : String :=
  let comments := ((prevSibs.filter (fun p => p.named)).reverse.takeWhile isCommentType).reverse
  if comments.isEmpty then ""
  else
    clean_comment_markers
      (joinWithNewline (comments.map (fun p => String.mk (sliceL source p.startByte p.endByte))))

/-- `_extract_docstring`: strategy dispatch. -/
def extract_docstring (node : TSNode) (spec : LanguageSpec) (source : List Char)
    (prevSibs : List TSNode) : String :=
  if spec.docstring_strategy == "next_sibling_string" then
    extract_python_docstring node source
  else if spec.docstring_strategy == "preceding_comment" then
    extract_preceding_comments source prevSibs
  else ""

/-- `_extract_decorators`: walk backwards through preceding named siblings
matching the spec's decorator node type, collect verbatim (stripped). -/
def extract_decorators (spec : LanguageSpec) (source : List Char)
    (prevSibs : List TSNode) : List String :=
  match spec.decorator_node_type with
  | none => []
  | some dt =>
    let decs := ((prevSibs.filter (fun p => p.named)).reverse.takeWhile
      (fun p => p.ntype == dt)).reverse
    decs.map (fun p => String.mk (stripChars (sliceL source p.startByte p.endByte)))

/-- `_extract_constant`: a top-level `assignment` with a simple identifier
left-hand side whose name passes the upper-case heuristic. -/
def extract_constant (node : TSNode) (spec : LanguageSpec) (source : List Char)
    (filename language : String) : Option Symbol :=
  if node.ntype == "assignment" then
    match child_by_field_name node "left" with
    | some left =>
      if left.ntype == "identifier" then
        let nameL := sliceL source left.startByte left.endByte
        if pyIsUpperL nameL
            || (decide (nameL.length > 1) && (nameL.headD ' ').isUpper && nameL.contains '_') then
          let sig := stripChars (sliceL source node.startByte node.endByte)
          let name := String.mk nameL
          some
            { id := make_symbol_id filename name
              file := filename
              name := name
              qualified_name := name
              kind := "constant"
              language := language
              signature := String.mk (sig.take 100)
              line := node.startRow + 1
              end_line := node.endRow + 1
              byte_offset := node.startByte
              byte_length := node.endByte - node.startByte }
        else none
      else none
    | none => none
  else none

/-- `_extract_symbol`: error gate, name extraction (empty or missing name
aborts), qualified-name and kind computation from the enclosing-symbol
context, then the record assembly. -/
def extract_symbol (node : TSNode) (spec : LanguageSpec) (source : List Char)
    (filename language : String) (prevSibs : List TSNode)
    (parent_symbol : Option Symbol) : Option Symbol :=
  match lookupKV spec.symbol_node_types node.ntype with
  | none => none
  | some kind0 =>
    if node.hasError then none
    else
      match extract_name node spec source with
      | none => none
      | some name =>
        if name == "" then none
        else
          let qualified_name :=
            match parent_symbol with
            | some p => p.name ++ "." ++ name
            | none => name
          let kind :=
            match parent_symbol with
            | some _ => if kind0 == "function" then "method" else kind0
            | none => kind0
          some
            { id := make_symbol_id filename qualified_name
              file := filename
              name := name
              qualified_name := qualified_name
              kind := kind
              language := language
              signature := build_signature node spec source
              docstring := extract_docstring node spec source prevSibs
              decorators := extract_decorators spec source prevSibs
              parent := parent_symbol.map (fun p => p.id)
              line := node.startRow + 1
              end_line := node.endRow + 1
              byte_offset := node.startByte
              byte_length := node.endByte - node.startByte }

mutual

/-- `_walk_tree`: recursive pre-order walk carrying the enclosing-symbol
context; a successfully extracted symbol becomes the context for the
subtree; the constant branch fires only with no enclosing symbol. -/
def walk_tree (spec : LanguageSpec) (source : List Char) (filename language : String) :
    TSNode → List TSNode → Option Symbol → List Symbol
  | node@(.mk _ _ _ _ _ _ _ _ kids), prevSibs, parent_symbol =>
    let res :=
      if memKV spec.symbol_node_types node.ntype then
        match extract_symbol node spec source filename language prevSibs parent_symbol with
        | some symbol => ([symbol], some symbol)
        | none => (([] : List Symbol), parent_symbol)
      else (([] : List Symbol), parent_symbol)
    let constPart :=
      if spec.constant_patterns.contains node.ntype && res.2.isNone then
        match extract_constant node spec source filename language with
        | some cs => [cs]
        | none => ([] : List Symbol)
      else ([] : List Symbol)
    res.1 ++ constPart ++ walk_children spec source filename language kids [] res.2

/-- The children loop of `_walk_tree`, accumulating each child's
preceding-sibling list. -/
def walk_children (spec : LanguageSpec) (source : List Char) (filename language : String) :
    TSList → List TSNode → Option Symbol → List Symbol
  | .tnil, _, _ => []
  | .tcons c cs, prev, parent =>
    walk_tree spec source filename language c prev parent
      ++ walk_children spec source filename language cs (prev ++ [c]) parent

end

/-- `parse_file`: registry lookup (unknown language yields an empty result),
then the walk from the root with no enclosing symbol.  Producing `tree` from
the text is the external parser's job (spec sections 1 and 6), so the model
receives the tree together with the source buffer. -/
def parse_file (tree : TSNode) (source : List Char) (filename language : String) : List Symbol :=
  match lookupKV LANGUAGE_REGISTRY language with
  | none => []
  | some spec => walk_tree spec source filename language tree [] none

/-! ## Hierarchy builder (hierarchy.py)

`SymbolNode`/`SNForest` mirror the `SymbolNode` dataclass (a symbol plus an
ordered child list).  The Python build is a two-pass imperative loop: pass
one allocates one shared node per symbol in an id-keyed map, pass two
appends each symbol's node to its parent's node (found through the map) or
to the root list.  The functional rendering below processes the symbols in
the same order, attaching each new node inside the forest built so far;
this is the same computation whenever parent references point to symbols
that occur earlier in the list (the only situation the theorems below
consider — a forward or dangling-yet-mapped reference would mutate a node
not yet reachable from the roots). -/

mutual

inductive SymbolNode where
  | mk (symbol : Symbol) (children : SNForest)

inductive SNForest where
  | nil
  | cons (head : SymbolNode) (tail : SNForest)

end

def SymbolNode.symbol : SymbolNode → Symbol
  | .mk s _ => s

def SymbolNode.children : SymbolNode → SNForest
  | .mk _ cs => cs

/-- Append a node at the end of a forest (Python `list.append` on roots or
on a children list). -/
def snocF : SNForest → SymbolNode → SNForest
  | .nil, c => .cons c .nil
  | .cons n f, c => .cons n (snocF f c)

mutual

/-- Append `c` to the children of the node whose symbol id is `pid`
(`node_map[pid].children.append(c)`); no-op when no node matches.  Ids are
distinct in every use below, so at most one node is affected. -/
def attachNode (pid : String) (c : SymbolNode) : SymbolNode → SymbolNode
  | .mk s cs => if s.id == pid then .mk s (snocF cs c) else .mk s (attachForest pid c cs)

def attachForest (pid : String) (c : SymbolNode) : SNForest → SNForest
  | .nil => .nil
  | .cons n f => .cons (attachNode pid c n) (attachForest pid c f)

end

/-- The linking loop of `build_symbol_tree`: each symbol in order either
attaches to its parent's node (when `symbol.parent` is set and is a known
id) or becomes a root. -/
def build_go (ids : List String) : List Symbol → SNForest → SNForest
  | [], forest => forest
  | s :: rest, forest =>
    match s.parent with
    | some pid =>
      if ids.contains pid then build_go ids rest (attachForest pid (.mk s .nil) forest)
      else build_go ids rest (snocF forest (.mk s .nil))
    | none => build_go ids rest (snocF forest (.mk s .nil))

/-- `build_symbol_tree`: build the forest from the flat symbol list. -/
def build_symbol_tree (symbols : List Symbol) : SNForest :=
  build_go (symbols.map (fun s => s.id)) symbols .nil

mutual

/-- One node of `flatten_tree`: emit the node, then its children one level
deeper. -/
def flattenNode (depth : Nat) : SymbolNode → List (Symbol × Nat)
  | .mk s cs => (s, depth) :: flattenForest (depth + 1) cs

def flattenForest (depth : Nat) : SNForest → List (Symbol × Nat)
  | .nil => []
  | .cons n f => flattenNode depth n ++ flattenForest depth f

end

/-- `flatten_tree` with its default starting depth 0. -/
def flatten_tree (nodes : SNForest) : List (Symbol × Nat) :=
  flattenForest 0 nodes

/-! Observation helpers on forests, used to state and prove the hierarchy
claims. -/

mutual

def nodeIds : SymbolNode → List String
  | .mk s cs => s.id :: forestIds cs

def forestIds : SNForest → List String
  | .nil => []
  | .cons n f => nodeIds n ++ forestIds f

end

mutual

def msOfNode : SymbolNode → Multiset Symbol
  | .mk s cs => s ::ₘ msOfForest cs

def msOfForest : SNForest → Multiset Symbol
  | .nil => 0
  | .cons n f => msOfNode n + msOfForest f

end

/-- The symbols carried by the top-level nodes of a forest, in order. -/
def topSyms : SNForest → List Symbol
  | .nil => []
  | .cons n f => n.symbol :: topSyms f

mutual

/-- The symbols recorded as children of any node with id `pid`, in order. -/
def childSymsN (pid : String) : SymbolNode → List Symbol
  | .mk s cs => (if s.id == pid then topSyms cs else []) ++ childSymsF pid cs

def childSymsF (pid : String) : SNForest → List Symbol
  | .nil => []
  | .cons n f => childSymsN pid n ++ childSymsF pid f

end

/-- Descendant relation induced on a symbol batch by the `parent`
back-references: `Desc l p s` says `s` is a strict descendant of `p`. -/
inductive Desc (l : List Symbol) : Symbol → Symbol → Prop
  | parent {p s : Symbol} : p ∈ l → s ∈ l → s.parent = some p.id → Desc l p s
  | trans {p q s : Symbol} : Desc l p q → Desc l q s → Desc l p s

/-- `p`'s entry occurs strictly before `t`'s entry in a flattened list. -/
def BeforeIn (L : List (Symbol × Nat)) (p t : Symbol) : Prop :=
  ∃ A B, L = A ++ B ∧ (∃ dp, (p, dp) ∈ A) ∧ (∃ dt, (t, dt) ∈ B)

/-- The build invariant: after the linking loop has processed `pre` (out of
a batch whose id list is `ids`), the forest carries exactly the processed
symbols, with children, depths, roots and ordering as the hierarchy claims
state. -/
def HierInv (ids : List String) (pre : List Symbol) (F : SNForest) : Prop :=
  (forestIds F).Perm (pre.map Symbol.id)
  ∧ msOfForest F = ↑pre
  ∧ (∀ x ∈ ids, childSymsF x F = pre.filter (fun t => t.parent == some x))
  ∧ (∀ s p ds dp, (s, ds) ∈ flattenForest 0 F → (p, dp) ∈ flattenForest 0 F →
      s.parent = some p.id → ds = dp + 1)
  ∧ (∀ t ∈ pre, (∀ pid, t.parent = some pid → pid ∉ ids) → (t, 0) ∈ flattenForest 0 F)
  ∧ (∀ t ∈ pre, ∀ pid, t.parent = some pid → pid ∈ ids →
      ∃ p ∈ pre, p.id = pid ∧ BeforeIn (flattenForest 0 F) p t)

/-- Executable check that every non-null parent reference points at the id
of a strictly earlier symbol. -/
def backRefsGo (seen : List String) : List Symbol → Bool
  | [] => true
  | t :: rest =>
    (match t.parent with
     | some pid => seen.contains pid
     | none => true) && backRefsGo (seen ++ [t.id]) rest

def backRefsB (l : List Symbol) : Bool :=
  backRefsGo [] l

/-! ## Spec-side predicates (stated from the specification's words) -/

/-- Stated from the spec: "A name is accepted as a constant only if it is
either entirely upper-case, or mixed case beginning with an upper-case
letter and containing an underscore."  "Entirely upper-case" is Python's
`str.isupper` convention (at least one letter, no lower-case letter), as in
the spec's own example `MAX_SIZE`. -/
def SpecConstName (name : List Char) : Prop :=
  ((∃ c ∈ name, c.isAlpha = true) ∧ ∀ c ∈ name, c.isAlpha = true → c.isUpper = true)
  ∨ (name.length > 1 ∧ (name.headD ' ').isUpper = true ∧ '_' ∈ name)

instance (name : List Char) : Decidable (SpecConstName name) := by
  unfold SpecConstName; infer_instance

mutual

/-- A subtree that triggers neither the symbol branch nor the constant
branch of the walker at any node. -/
def quietNode (spec : LanguageSpec) : TSNode → Bool
  | .mk t _ _ _ _ _ _ _ kids =>
    !(memKV spec.symbol_node_types t) && !(spec.constant_patterns.contains t)
      && quietList spec kids

def quietList (spec : LanguageSpec) : TSList → Bool
  | .tnil => true
  | .tcons c cs => quietNode spec c && quietList spec cs

end

/-! ## Byte-accurate decoding model (for the decoding-failure claim)

Here the source buffer is a true byte list and `bytes.decode("utf-8")` is
the strict, fallible `utf8Decode` (exactly Python's strict decoder on the
byte shapes it accepts: no overlong encodings, no surrogates, no
out-of-range code points).  A failed decode is the named failure condition
`ExtractErr.invalidEncoding`, the model of the `UnicodeDecodeError` that
propagates out of the extractor. -/

inductive ExtractErr where
  | invalidEncoding
deriving DecidableEq

def utf8Cont (b : Nat) : Bool :=
  decide (0x80 ≤ b) && decide (b ≤ 0xBF)

def utf8Decode : List Nat → Option (List Char)
  | [] => some []
  | b1 :: rest =>
    if b1 < 0x80 then (utf8Decode rest).map (fun cs => Char.ofNat b1 :: cs)
    else if decide (0xC2 ≤ b1) && decide (b1 ≤ 0xDF) then
      match rest with
      | b2 :: rest2 =>
        if utf8Cont b2 then
          (utf8Decode rest2).map (fun cs => Char.ofNat ((b1 - 0xC0) * 0x40 + (b2 - 0x80)) :: cs)
        else none
      | [] => none
    else if decide (0xE0 ≤ b1) && decide (b1 ≤ 0xEF) then
      match rest with
      | b2 :: b3 :: rest3 =>
        if utf8Cont b2 && utf8Cont b3 && (b1 != 0xE0 || decide (0xA0 ≤ b2))
            && (b1 != 0xED || decide (b2 ≤ 0x9F)) then
          (utf8Decode rest3).map
            (fun cs => Char.ofNat (((b1 - 0xE0) * 0x40 + (b2 - 0x80)) * 0x40 + (b3 - 0x80)) :: cs)
        else none
      | _ => none
    else if decide (0xF0 ≤ b1) && decide (b1 ≤ 0xF4) then
      match rest with
      | b2 :: b3 :: b4 :: rest4 =>
        if utf8Cont b2 && utf8Cont b3 && utf8Cont b4 && (b1 != 0xF0 || decide (0x90 ≤ b2))
            && (b1 != 0xF4 || decide (b2 ≤ 0x8F)) then
          (utf8Decode rest4).map
            (fun cs => Char.ofNat
              ((((b1 - 0xF0) * 0x40 + (b2 - 0x80)) * 0x40 + (b3 - 0x80)) * 0x40 + (b4 - 0x80)) :: cs)
        else none
      | _ => none
    else none

/-- Python `source_bytes[a:b]` on true bytes. -/
def sliceB (src : List Nat) (a b : Nat) : List Nat :=
  (src.drop a).take (b - a)

/-- `source_bytes[a:b].decode("utf-8")`, fallible. -/
def decodeRange (src : List Nat) (a b : Nat) : Except ExtractErr String :=
  match utf8Decode (sliceB src a b) with
  | some cs => .ok (String.mk cs)
  | none => .error .invalidEncoding

/-- `_extract_name` over true bytes: every decode may fail, and a failure
propagates (Python raises through the caller). -/
def extract_name_b (node : TSNode) (spec : LanguageSpec) (src : List Nat) :
    Except ExtractErr (Option String) :=
  if node.ntype == "arrow_function" then .ok none
  else if node.ntype == "type_declaration" then
    match node.children.toList.find?
        (fun c => c.ntype == "type_spec" && (child_by_field_name c "name").isSome) with
    | some child =>
      match child_by_field_name child "name" with
      | some nn => (decodeRange src nn.startByte nn.endByte).map some
      | none => .ok none
    | none => .ok none
  else
    match lookupKV spec.name_fields node.ntype with
    | none => .ok none
    | some f =>
      match child_by_field_name node f with
      | some nn => (decodeRange src nn.startByte nn.endByte).map some
      | none => .ok none

/-- `_build_signature` over true bytes. -/
def build_signature_b (node : TSNode) (spec : LanguageSpec) (src : List Nat) :
    Except ExtractErr String :=
  let endB :=
    match child_by_field_name node "body" with
    | some body => body.startByte
    | none => node.endByte
  (decodeRange src node.startByte endB).map
    (fun t => String.mk (rstripSet ['{', ':', ' ', '\n', '\t'] (stripChars t.data)))

/-- The `expression_statement` checks of `_extract_python_docstring` over
true bytes. -/
def exprStmtString_b (src : List Nat) (child : TSNode) : Except ExtractErr (Option String) :=
  let fieldCase :=
    match child_by_field_name child "expression" with
    | some expr =>
      if expr.ntype == "string" then
        some ((decodeRange src expr.startByte expr.endByte).map strip_quotes)
      else none
    | none => none
  match fieldCase with
  | some r => r.map some
  | none =>
    match child.children.toList with
    | [] => .ok none
    | first :: _ =>
      if first.ntype == "string" || first.ntype == "concatenated_string" then
        (decodeRange src first.startByte first.endByte).map (fun d => some (strip_quotes d))
      else .ok none

/-- The body-children loop of `_extract_python_docstring` over true bytes. -/
def docstringFromChildren_b (src : List Nat) : List TSNode → Except ExtractErr (Option String)
  | [] => .ok none
  | child :: rest =>
    if child.ntype == "expression_statement" then
      match exprStmtString_b src child with
      | .error e => .error e
      | .ok (some d) => .ok (some d)
      | .ok none => docstringFromChildren_b src rest
    else if child.ntype == "string" then
      (decodeRange src child.startByte child.endByte).map (fun d => some (strip_quotes d))
    else docstringFromChildren_b src rest

/-- `_extract_python_docstring` over true bytes. -/
def extract_python_docstring_b (node : TSNode) (src : List Nat) : Except ExtractErr String :=
  match child_by_field_name node "body" with
  | none => .ok ""
  | some body =>
    if body.children.isNil then .ok ""
    else
      match docstringFromChildren_b src body.children.toList with
      | .error e => .error e
      | .ok (some d) => .ok d
      | .ok none => .ok ""

/-! ## Concrete parsed inputs

Each group is the syntax tree the external Python/tree-sitter parser
produces for the quoted source, with byte spans into the source buffer. -/

/-! Source `"class A:\n class B:\n  def m(s):\n   0\n"` — a class nested in a
class, with a method two levels deep. -/

def src1 : List Char := "class A:\n class B:\n  def m(s):\n   0\n".data

def idA : TSNode := .mk "identifier" true false 6 7 0 0 .anil .tnil

def idB : TSNode := .mk "identifier" true false 16 17 1 1 .anil .tnil

def idM : TSNode := .mk "identifier" true false 25 26 2 2 .anil .tnil

def intM : TSNode := .mk "integer" true false 34 35 3 3 .anil .tnil

def esM : TSNode := .mk "expression_statement" true false 34 35 3 3 .anil (.tcons intM .tnil)

def blockM : TSNode := .mk "block" true false 34 35 3 3 .anil (.tcons esM .tnil)

def defM : TSNode := .mk "function_definition" true false 21 35 2 3
  (.acons "name" idM (.acons "body" blockM .anil)) (.tcons idM (.tcons blockM .tnil))

def blockB : TSNode := .mk "block" true false 19 35 2 3 .anil (.tcons defM .tnil)

def classB : TSNode := .mk "class_definition" true false 10 35 1 3
  (.acons "name" idB (.acons "body" blockB .anil)) (.tcons idB (.tcons blockB .tnil))

def blockA : TSNode := .mk "block" true false 9 35 1 3 .anil (.tcons classB .tnil)

def classA : TSNode := .mk "class_definition" true false 0 35 0 3
  (.acons "name" idA (.acons "body" blockA .anil)) (.tcons idA (.tcons blockA .tnil))

def module1 : TSNode := .mk "module" true false 0 36 0 4 .anil (.tcons classA .tnil)

/-! Source `"def f():\n 0\ndef f():\n 0\n"` — two top-level functions with the
same name (legal Python; the second shadows the first). -/

def src2 : List Char := "def f():\n 0\ndef f():\n 0\n".data

def idF1 : TSNode := .mk "identifier" true false 4 5 0 0 .anil .tnil

def intF1 : TSNode := .mk "integer" true false 10 11 1 1 .anil .tnil

def esF1 : TSNode := .mk "expression_statement" true false 10 11 1 1 .anil (.tcons intF1 .tnil)

def blkF1 : TSNode := .mk "block" true false 10 11 1 1 .anil (.tcons esF1 .tnil)

def defF1 : TSNode := .mk "function_definition" true false 0 11 0 1
  (.acons "name" idF1 (.acons "body" blkF1 .anil)) (.tcons idF1 (.tcons blkF1 .tnil))

def idF2 : TSNode := .mk "identifier" true false 16 17 2 2 .anil .tnil

def intF2 : TSNode := .mk "integer" true false 22 23 3 3 .anil .tnil

def esF2 : TSNode := .mk "expression_statement" true false 22 23 3 3 .anil (.tcons intF2 .tnil)

def blkF2 : TSNode := .mk "block" true false 22 23 3 3 .anil (.tcons esF2 .tnil)

def defF2 : TSNode := .mk "function_definition" true false 12 23 2 3
  (.acons "name" idF2 (.acons "body" blkF2 .anil)) (.tcons idF2 (.tcons blkF2 .tnil))

def module2 : TSNode := .mk "module" true false 0 24 0 4 .anil
  (.tcons defF1 (.tcons defF2 .tnil))

/-! Source `"def g():\n x = 1\n 'late doc'\n"` — the first body statement is
an assignment and a bare string literal appears later in the body. -/

def src3 : List Char := "def g():\n x = 1\n 'late doc'\n".data

def idG : TSNode := .mk "identifier" true false 4 5 0 0 .anil .tnil

def idX : TSNode := .mk "identifier" true false 10 11 1 1 .anil .tnil

def intX : TSNode := .mk "integer" true false 14 15 1 1 .anil .tnil

def assignX : TSNode := .mk "assignment" true false 10 15 1 1
  (.acons "left" idX (.acons "right" intX .anil)) (.tcons idX (.tcons intX .tnil))

def esX : TSNode := .mk "expression_statement" true false 10 15 1 1 .anil (.tcons assignX .tnil)

def strLate : TSNode := .mk "string" true false 17 27 2 2 .anil .tnil

def esLate : TSNode := .mk "expression_statement" true false 17 27 2 2 .anil
  (.tcons strLate .tnil)

def blkG : TSNode := .mk "block" true false 10 27 1 2 .anil (.tcons esX (.tcons esLate .tnil))

def defG : TSNode := .mk "function_definition" true false 0 27 0 2
  (.acons "name" idG (.acons "body" blkG .anil)) (.tcons idG (.tcons blkG .tnil))

def module3 : TSNode := .mk "module" true false 0 28 0 3 .anil (.tcons defG .tnil)

/-! Source `"MAX_SIZE = 100\n"` — a top-level upper-case assignment. -/

def srcMax : List Char := "MAX_SIZE = 100\n".data

def idMax : TSNode := .mk "identifier" true false 0 8 0 0 .anil .tnil

def eqMax : TSNode := .mk "=" false false 9 10 0 0 .anil .tnil

def numMax : TSNode := .mk "integer" true false 11 14 0 0 .anil .tnil

def assignMax : TSNode := .mk "assignment" true false 0 14 0 0
  (.acons "left" idMax (.acons "right" numMax .anil))
  (.tcons idMax (.tcons eqMax (.tcons numMax .tnil)))

def esMax : TSNode := .mk "expression_statement" true false 0 14 0 0 .anil
  (.tcons assignMax .tnil)

def moduleMax : TSNode := .mk "module" true false 0 15 0 1 .anil (.tcons esMax .tnil)

/-! Source `"def b(:\n 0\ndef ok():\n 0\n"` — a syntactically broken function
(its subtree is marked as containing a parse error) followed by a
well-formed one. -/

def src7 : List Char := "def b(:\n 0\ndef ok():\n 0\n".data

def idB7 : TSNode := .mk "identifier" true false 4 5 0 0 .anil .tnil

def intBad : TSNode := .mk "integer" true false 9 10 1 1 .anil .tnil

def esBad : TSNode := .mk "expression_statement" true false 9 10 1 1 .anil (.tcons intBad .tnil)

def blkBad : TSNode := .mk "block" true false 9 10 1 1 .anil (.tcons esBad .tnil)

def badFn : TSNode := .mk "function_definition" true true 0 10 0 1
  (.acons "name" idB7 (.acons "body" blkBad .anil)) (.tcons idB7 (.tcons blkBad .tnil))

def idOk : TSNode := .mk "identifier" true false 15 17 2 2 .anil .tnil

def intOk : TSNode := .mk "integer" true false 22 23 3 3 .anil .tnil

def esOk : TSNode := .mk "expression_statement" true false 22 23 3 3 .anil (.tcons intOk .tnil)

def blkOk : TSNode := .mk "block" true false 22 23 3 3 .anil (.tcons esOk .tnil)

def goodFn : TSNode := .mk "function_definition" true false 11 23 2 3
  (.acons "name" idOk (.acons "body" blkOk .anil)) (.tcons idOk (.tcons blkOk .tnil))

def module7 : TSNode := .mk "module" true true 0 24 0 4 .anil
  (.tcons badFn (.tcons goodFn .tnil))

/-- A concrete enclosing-symbol context (the class `A.B` of `src1`). -/
def c6parent : Symbol :=
  { id := "f-py::A.B", file := "f.py", name := "B", qualified_name := "A.B"
    kind := "class", language := "python", signature := "class B" }

/-! A byte buffer whose first byte is not valid UTF-8, with a name node
spanning exactly that byte. -/

def srcBad : List Nat := [0xFF, 0x41]

def nameNodeBad : TSNode := .mk "identifier" true false 0 1 0 0 .anil .tnil

def fnNodeBad : TSNode := .mk "function_definition" true false 0 2 0 0
  (.acons "name" nameNodeBad .anil) (.tcons nameNodeBad .tnil)

/-! A concrete symbol batch for the hierarchy claims: a class, a method of
that class, and a standalone function. -/

def sym9a : Symbol :=
  { id := "w-py::C", file := "w.py", name := "C", qualified_name := "C"
    kind := "class", language := "python", signature := "class C" }

def sym9b : Symbol :=
  { id := "w-py::C.m", file := "w.py", name := "m", qualified_name := "C.m"
    kind := "method", language := "python", signature := "def m(self)"
    parent := some "w-py::C" }

def sym9c : Symbol :=
  { id := "w-py::f", file := "w.py", name := "f", qualified_name := "f"
    kind := "function", language := "python", signature := "def f()" }

def l9 : List Symbol := [sym9a, sym9b, sym9c]

/-! ## Basic lemmas -/

@[simp] theorem ntype_mk (t : String) (nm he : Bool) (sb eb sr er : Nat)
    (fs : TSAttrs) (kids : TSList) :
    (TSNode.mk t nm he sb eb sr er fs kids).ntype = t := rfl

@[simp] theorem hasError_mk (t : String) (nm he : Bool) (sb eb sr er : Nat)
    (fs : TSAttrs) (kids : TSList) :
    (TSNode.mk t nm he sb eb sr er fs kids).hasError = he := rfl

@[simp] theorem children_mk (t : String) (nm he : Bool) (sb eb sr er : Nat)
    (fs : TSAttrs) (kids : TSList) :
    (TSNode.mk t nm he sb eb sr er fs kids).children = kids := rfl

@[simp] theorem fields_mk (t : String) (nm he : Bool) (sb eb sr er : Nat)
    (fs : TSAttrs) (kids : TSList) :
    (TSNode.mk t nm he sb eb sr er fs kids).fields = fs := rfl

/-- Every value produced by an association-list lookup is a value of the
list. -/
theorem lookupKV_mem {α : Type} (l : List (String × α)) (key : String) (v : α)
    (h : lookupKV l key = some v) : ∃ p ∈ l, p.2 = v := by
  induction l with
  | nil => simp [lookupKV] at h
  | cons kv rest ih =>
    rw [lookupKV] at h
    split at h
    · exact ⟨kv, by simp, by injection h⟩
    · obtain ⟨p, hp, hv⟩ := ih h
      exact ⟨p, by simp [hp], hv⟩

/-- Elimination for a successful `extract_symbol`: the facts every emitted
symbol record carries. -/
theorem extract_symbol_some {node : TSNode} {spec : LanguageSpec} {source : List Char}
    {filename language : String} {prevSibs : List TSNode} {par : Option Symbol} {s : Symbol}
    (h : extract_symbol node spec source filename language prevSibs par = some s) :
    s.id = make_symbol_id filename s.qualified_name
    ∧ s.parent = par.map (fun p => p.id)
    ∧ node.hasError = false
    ∧ (∀ p, par = some p → s.qualified_name = p.name ++ "." ++ s.name)
    ∧ ∃ k, lookupKV spec.symbol_node_types node.ntype = some k
        ∧ ((par = none ∧ s.kind = k)
           ∨ ∃ p, par = some p
               ∧ s.kind = (if k == "function" then "method" else k)) := by
  unfold extract_symbol at h
  split at h
  · exact absurd h (by simp)
  next k hk =>
    split at h
    · exact absurd h (by simp)
    next herr =>
      split at h
      · exact absurd h (by simp)
      next name hname =>
        split at h
        · exact absurd h (by simp)
        next hne =>
          cases par with
          | none =>
            injection h with h
            subst h
            exact ⟨rfl, rfl, by simpa using herr, by simp, k, hk, Or.inl ⟨rfl, rfl⟩⟩
          | some p =>
            injection h with h
            subst h
            refine ⟨rfl, rfl, by simpa using herr, ?_, k, hk, Or.inr ⟨p, rfl, rfl⟩⟩
            intro q hq
            injection hq with hq
            subst hq
            rfl

/-- Elimination for a successful `extract_constant`. -/
theorem extract_constant_some {node : TSNode} {spec : LanguageSpec} {source : List Char}
    {filename language : String} {s : Symbol}
    (h : extract_constant node spec source filename language = some s) :
    s.id = make_symbol_id filename s.qualified_name
    ∧ s.parent = none
    ∧ s.kind = "constant"
    ∧ node.ntype = "assignment" := by
  unfold extract_constant at h
  split at h
  next hty =>
    split at h
    next left hleft =>
      split at h
      next hid =>
        dsimp only at h
        split at h
        next hcond =>
          injection h with h
          subst h
          exact ⟨rfl, rfl, rfl, by simpa using hty⟩
        · exact absurd h (by simp)
      · exact absurd h (by simp)
    next => exact absurd h (by simp)
  next => exact absurd h (by simp)

/-- `_extract_symbol` refuses a node whose subtree is marked as containing
a parse error. -/
theorem extract_symbol_of_hasError {node : TSNode} {spec : LanguageSpec} {source : List Char}
    {filename language : String} {prevSibs : List TSNode} {par : Option Symbol}
    (herr : node.hasError = true) :
    extract_symbol node spec source filename language prevSibs par = none := by
  unfold extract_symbol
  split
  · rfl
  · simp [herr]

mutual

/-- Lifting lemma: a property holding of every successful node extraction
and of every constant extracted at a node whose type is in
`constant_patterns` holds of every symbol the walk emits. -/
theorem walk_tree_forall (spec : LanguageSpec) (source : List Char) (filename language : String)
    (Q : Symbol → Prop)
    (hsym : ∀ node prevSibs par s,
      extract_symbol node spec source filename language prevSibs par = some s → Q s)
    (hconst : ∀ node s, spec.constant_patterns.contains node.ntype = true →
      extract_constant node spec source filename language = some s → Q s) :
    ∀ node prev par s, s ∈ walk_tree spec source filename language node prev par → Q s
  | .mk t nm he sb eb sr er fs kids, prev, par, s => by
    intro hs
    simp only [walk_tree] at hs
    by_cases hm : memKV spec.symbol_node_types t = true
    · cases he2 : extract_symbol (TSNode.mk t nm he sb eb sr er fs kids)
          spec source filename language prev par with
      | some symbol =>
        simp [hm, he2] at hs
        rcases hs with hs | hs
        · exact hs ▸ hsym _ _ _ _ he2
        · exact walk_children_forall spec source filename language Q hsym hconst
            kids [] (some symbol) s hs
      | none =>
        simp [hm, he2] at hs
        cases hec : extract_constant (TSNode.mk t nm he sb eb sr er fs kids)
            spec source filename language with
        | some cs =>
          simp [hec] at hs
          rcases hs with hs | hs
          · have hc1 : t ∈ spec.constant_patterns := by tauto
            have hcs : s = cs := by tauto
            exact hcs ▸ hconst _ _ (by simpa using hc1) hec
          · exact walk_children_forall spec source filename language Q hsym hconst
              kids [] par s hs
        | none =>
          simp [hec] at hs
          exact walk_children_forall spec source filename language Q hsym hconst
            kids [] par s hs
    · simp [hm] at hs
      cases hec : extract_constant (TSNode.mk t nm he sb eb sr er fs kids)
          spec source filename language with
      | some cs =>
        simp [hec] at hs
        rcases hs with hs | hs
        · have hc1 : t ∈ spec.constant_patterns := by tauto
          have hcs : s = cs := by tauto
          exact hcs ▸ hconst _ _ (by simpa using hc1) hec
        · exact walk_children_forall spec source filename language Q hsym hconst
            kids [] par s hs
      | none =>
        simp [hec] at hs
        exact walk_children_forall spec source filename language Q hsym hconst
          kids [] par s hs

theorem walk_children_forall (spec : LanguageSpec) (source : List Char)
    (filename language : String) (Q : Symbol → Prop)
    (hsym : ∀ node prevSibs par s,
      extract_symbol node spec source filename language prevSibs par = some s → Q s)
    (hconst : ∀ node s, spec.constant_patterns.contains node.ntype = true →
      extract_constant node spec source filename language = some s → Q s) :
    ∀ l prev par s, s ∈ walk_children spec source filename language l prev par → Q s
  | .tnil, prev, par, s => by
    intro hs
    simp [walk_children] at hs
  | .tcons c cs, prev, par, s => by
    intro hs
    simp only [walk_children, List.mem_append] at hs
    rcases hs with hs | hs
    · exact walk_tree_forall spec source filename language Q hsym hconst c prev par s hs
    · exact walk_children_forall spec source filename language Q hsym hconst
        cs (prev ++ [c]) par s hs

end

mutual

/-- Lifting lemma under a non-null enclosing-symbol context: the context
stays non-null throughout the subtree, so the constant branch never fires
and every emitted symbol comes from a node extraction with a parent. -/
theorem walk_tree_forall_under (spec : LanguageSpec) (source : List Char)
    (filename language : String) (Q : Symbol → Prop)
    (hsym : ∀ node prevSibs p s,
      extract_symbol node spec source filename language prevSibs (some p) = some s → Q s) :
    ∀ node prev p s, s ∈ walk_tree spec source filename language node prev (some p) → Q s
  | .mk t nm he sb eb sr er fs kids, prev, p, s => by
    intro hs
    simp only [walk_tree] at hs
    by_cases hm : memKV spec.symbol_node_types t = true
    · cases he2 : extract_symbol (TSNode.mk t nm he sb eb sr er fs kids)
          spec source filename language prev (some p) with
      | some symbol =>
        simp [hm, he2] at hs
        rcases hs with hs | hs
        · exact hs ▸ hsym _ _ _ _ he2
        · exact walk_children_forall_under spec source filename language Q hsym
            kids [] symbol s hs
      | none =>
        simp [hm, he2] at hs
        exact walk_children_forall_under spec source filename language Q hsym kids [] p s hs
    · simp [hm] at hs
      exact walk_children_forall_under spec source filename language Q hsym kids [] p s hs

theorem walk_children_forall_under (spec : LanguageSpec) (source : List Char)
    (filename language : String) (Q : Symbol → Prop)
    (hsym : ∀ node prevSibs p s,
      extract_symbol node spec source filename language prevSibs (some p) = some s → Q s) :
    ∀ l prev p s, s ∈ walk_children spec source filename language l prev (some p) → Q s
  | .tnil, prev, p, s => by
    intro hs
    simp [walk_children] at hs
  | .tcons c cs, prev, p, s => by
    intro hs
    simp only [walk_children, List.mem_append] at hs
    rcases hs with hs | hs
    · exact walk_tree_forall_under spec source filename language Q hsym c prev p s hs
    · exact walk_children_forall_under spec source filename language Q hsym
        cs (prev ++ [c]) p s hs

end

mutual

/-- A quiet subtree (no node matches the symbol table or the constant
patterns) contributes nothing to the walk. -/
theorem walk_tree_quiet (spec : LanguageSpec) (source : List Char)
    (filename language : String) :
    ∀ node prev par, quietNode spec node = true →
      walk_tree spec source filename language node prev par = []
  | .mk t nm he sb eb sr er fs kids, prev, par => by
    intro hq
    have hq' : (!memKV spec.symbol_node_types t && !spec.constant_patterns.contains t
        && quietList spec kids) = true := by simpa [quietNode] using hq
    rw [Bool.and_eq_true, Bool.and_eq_true] at hq'
    obtain ⟨⟨h1, h2⟩, h3⟩ := hq'
    have h1' : memKV spec.symbol_node_types t = false := by simpa using h1
    have h2' : spec.constant_patterns.contains t = false := by simpa using h2
    simp only [walk_tree]
    simp [h1', h2', walk_children_quiet spec source filename language kids [] par h3]
    intro hmem
    exact absurd hmem (by simpa using h2')

theorem walk_children_quiet (spec : LanguageSpec) (source : List Char)
    (filename language : String) :
    ∀ l prev par, quietList spec l = true →
      walk_children spec source filename language l prev par = []
  | .tnil, prev, par => by
    intro hq
    simp [walk_children]
  | .tcons c cs, prev, par => by
    intro hq
    rw [quietList, Bool.and_eq_true] at hq
    simp [walk_children, walk_tree_quiet spec source filename language c prev par hq.1,
      walk_children_quiet spec source filename language cs (prev ++ [c]) par hq.2]

end

theorem string_data_append (a b : String) : (a ++ b).data = a.data ++ b.data := rfl

/-- For a fixed file, `make_symbol_id` is injective in the qualified name. -/
theorem make_symbol_id_inj (f : String) :
    Function.Injective (fun qn => make_symbol_id f qn) := by
  intro a b h
  unfold make_symbol_id at h
  have hd := congrArg String.data h
  rw [string_data_append, string_data_append] at hd
  have := List.append_cancel_left hd
  cases a
  cases b
  exact congrArg String.mk this

theorem mapCongr {α β : Type} {l : List α} {f g : α → β} (h : ∀ a ∈ l, f a = g a) :
    l.map f = l.map g := by
  induction l with
  | nil => rfl
  | cons x xs ih =>
    simp only [List.map_cons, h x (by simp)]
    rw [ih (fun a ha => h a (by simp [ha]))]

/-- Every symbol `parse_file` emits carries the id built from its own
qualified name and the file slug. -/
theorem parse_file_id_qualified (tree : TSNode) (source : List Char)
    (filename language : String) :
    ∀ s ∈ parse_file tree source filename language,
      s.id = make_symbol_id filename s.qualified_name := by
  intro s hs
  unfold parse_file at hs
  split at hs
  · simp at hs
  next spec hspec =>
    refine walk_tree_forall spec source filename language
      (fun s' => s'.id = make_symbol_id filename s'.qualified_name) ?_ ?_ tree [] none s hs
    · intro node prevSibs par s' h
      exact (extract_symbol_some h).1
    · intro node s' hc h
      exact (extract_constant_some h).1

/-- C1, the code's behaviour at the failing input.  For the nested source
`class A: / class B: / def m(s):`, the method's qualified name is built
from its parent's short name (`parent_symbol.name`), producing `B.m`,
while its parent record's qualified name is `A.B`: the claimed identity
`S.qualified_name = P.qualified_name ++ "." ++ S.name` fails (it would
require `A.B.m`). -/
theorem claim1_qualified_name_uses_short_parent_name :
    (parse_file module1 src1 "f.py" "python").map (fun s => s.qualified_name)
      = ["A", "A.B", "B.m"]
    ∧ (parse_file module1 src1 "f.py" "python").map (fun s => s.parent)
      = [none, some "f-py::A", some "f-py::A.B"]
    ∧ (parse_file module1 src1 "f.py" "python").map (fun s => s.id)
      = ["f-py::A", "f-py::A.B", "f-py::B.m"]
    ∧ "B.m" ≠ "A.B" ++ "." ++ "m" := by
  refine ⟨by decide, by decide, by decide, by decide⟩

/-- C2, counterexample: two same-named top-level functions in one file
yield two symbols with the same id, so ids are not pairwise distinct for
every input. -/
theorem claim2_duplicate_ids_counterexample :
    (parse_file module2 src2 "t.py" "python").map (fun s => s.id)
      = ["t-py::f", "t-py::f"]
    ∧ ¬ ((parse_file module2 src2 "t.py" "python").map (fun s => s.id)).Nodup := by
  refine ⟨by decide, by decide⟩

/-- C2 as amended: within one `parse_file` result the ids are
`slug(file)::qualified_name`, so they are pairwise distinct whenever the
emitted qualified names are pairwise distinct. -/
theorem claim2_ids_distinct_of_qualified_distinct (tree : TSNode) (source : List Char)
    (filename language : String)
    (h : ((parse_file tree source filename language).map (fun s => s.qualified_name)).Nodup) :
    ((parse_file tree source filename language).map (fun s => s.id)).Nodup := by
  have hmap : (parse_file tree source filename language).map (fun s => s.id)
      = ((parse_file tree source filename language).map (fun s => s.qualified_name)).map
          (fun qn => make_symbol_id filename qn) := by
    rw [List.map_map]
    exact mapCongr (fun s hs => parse_file_id_qualified tree source filename language s hs)
  rw [hmap]
  exact h.map (make_symbol_id_inj filename)

theorem claim2_witness :
    ((parse_file module1 src1 "f.py" "python").map (fun s => s.qualified_name)).Nodup
    ∧ ((parse_file module1 src1 "f.py" "python").map (fun s => s.id)).Nodup :=
  ⟨by decide, claim2_ids_distinct_of_qualified_distinct module1 src1 "f.py" "python" (by decide)⟩

/-- C3, the code's behaviour at the failing input.  In
`def g():  x = 1  'late doc'` the first body statement is an assignment
(`exprStmtString` finds no string in it), yet the emitted docstring is the
later bare string literal, not the empty string the first-statement rule
requires. -/
theorem claim3_docstring_scans_past_first_statement :
    blkG.children.toList.map (fun c => c.ntype)
      = ["expression_statement", "expression_statement"]
    ∧ exprStmtString src3 esX = none
    ∧ extract_python_docstring defG src3 = "late doc"
    ∧ (parse_file module3 src3 "d.py" "python").map (fun s => s.docstring) = ["late doc"]
    ∧ "late doc" ≠ "" := by
  refine ⟨by decide, by decide, by decide, by decide, by decide⟩

/-- C4, the code's behaviour at the failing input.  The `//` branch is
checked before the `//!` branch, so the `//!` branch is unreachable and a
`//! Text` line keeps a leading `!`. -/
theorem claim4_bang_marker_leftover :
    clean_comment_markers "//! Text" = "! Text"
    ∧ cleanMarkerLine "//! Text".data = "! Text".data
    ∧ "! Text" ≠ "Text" := by
  refine ⟨by decide, by decide, by decide⟩

/-- The spec's constant-name wording coincides with the code's boolean
test. -/
theorem specConstName_iff (name : List Char) :
    SpecConstName name ↔ (pyIsUpperL name
      || (decide (name.length > 1) && (name.headD ' ').isUpper && name.contains '_')) = true := by
  unfold SpecConstName pyIsUpperL
  rw [Bool.or_eq_true, Bool.and_eq_true, Bool.and_eq_true, Bool.and_eq_true]
  constructor
  · rintro (⟨⟨c, hc, hca⟩, hall⟩ | ⟨hlen, hhead, hmem⟩)
    · left
      refine ⟨?_, ?_⟩
      · rw [List.any_eq_true]
        exact ⟨c, hc, hca⟩
      · rw [List.all_eq_true]
        intro x hx
        cases hxa : x.isAlpha with
        | false => simp [hxa]
        | true => simp [hxa, hall x hx hxa]
    · right
      exact ⟨⟨by simpa using hlen, hhead⟩, by simpa using hmem⟩
  · rintro (⟨hany, hall⟩ | ⟨⟨hlen, hhead⟩, hcont⟩)
    · left
      rw [List.any_eq_true] at hany
      rw [List.all_eq_true] at hall
      obtain ⟨c, hc, hca⟩ := hany
      refine ⟨⟨c, hc, hca⟩, ?_⟩
      intro x hx hxa
      have hx' := hall x hx
      simpa [hxa] using hx'
    · right
      exact ⟨by simpa using hlen, hhead, by simpa using hcont⟩

/-- In the Python table a symbol node type maps to `function` or `class`. -/
theorem python_kind_values {nt k : String}
    (h : lookupKV PYTHON_SPEC.symbol_node_types nt = some k) :
    k = "function" ∨ k = "class" := by
  rcases lookupKV_mem _ _ _ h with ⟨p, hp, hv⟩
  simp [PYTHON_SPEC] at hp
  rcases hp with rfl | rfl
  · exact Or.inl hv.symm
  · exact Or.inr hv.symm

/-- `_extract_constant` on an `assignment` with identifier left-hand side:
accepted names produce exactly the constant record, rejected names produce
nothing. -/
theorem extract_constant_eq_cases (node left : TSNode) (spec : LanguageSpec)
    (source : List Char) (filename language : String)
    (hty : node.ntype = "assignment")
    (hleft : child_by_field_name node "left" = some left)
    (hid : left.ntype = "identifier") :
    (SpecConstName (sliceL source left.startByte left.endByte) →
      extract_constant node spec source filename language = some
        { id := make_symbol_id filename (String.mk (sliceL source left.startByte left.endByte))
          file := filename
          name := String.mk (sliceL source left.startByte left.endByte)
          qualified_name := String.mk (sliceL source left.startByte left.endByte)
          kind := "constant"
          language := language
          signature := String.mk ((stripChars (sliceL source node.startByte node.endByte)).take 100)
          line := node.startRow + 1
          end_line := node.endRow + 1
          byte_offset := node.startByte
          byte_length := node.endByte - node.startByte })
    ∧ (¬ SpecConstName (sliceL source left.startByte left.endByte) →
        extract_constant node spec source filename language = none) := by
  constructor
  · intro hsc
    rw [specConstName_iff] at hsc
    unfold extract_constant
    rw [hty, hleft]
    simp only [hid, beq_self_eq_true, if_true]
    rw [if_pos hsc]
  · intro hsc
    rw [specConstName_iff] at hsc
    unfold extract_constant
    rw [hty, hleft]
    simp only [hid, beq_self_eq_true, if_true]
    rw [if_neg hsc]

/-- The walker at a top-level `assignment` node with a quiet subtree emits
exactly the result of `_extract_constant`. -/
theorem walk_tree_assignment (source : List Char) (filename language : String)
    (node : TSNode) (prev : List TSNode)
    (hty : node.ntype = "assignment")
    (hq : quietList PYTHON_SPEC node.children = true) :
    walk_tree PYTHON_SPEC source filename language node prev none
      = (match extract_constant node PYTHON_SPEC source filename language with
         | some s => [s]
         | none => []) := by
  cases node with
  | mk t nm he sb eb sr er fs kids =>
    simp only [ntype_mk] at hty
    subst hty
    simp only [children_mk] at hq
    have hm : memKV PYTHON_SPEC.symbol_node_types "assignment" = false := by decide
    have hw := walk_children_quiet PYTHON_SPEC source filename language kids [] none hq
    simp only [walk_tree]
    simp [hm, hw]
    cases hec : extract_constant (TSNode.mk "assignment" nm he sb eb sr er fs kids)
        PYTHON_SPEC source filename language with
    | some cs => simp [hec, PYTHON_SPEC]
    | none => simp [hec]

/-- C5: at a top-level Python `assignment` node with a simple identifier
left-hand side (and no further extractable nodes below it), the walk emits
exactly one `constant` symbol — with no parent, the assignment text
(stripped) truncated to 100 characters as signature — precisely when the
name passes the spec's upper-case test; under a non-null enclosing symbol
the walk emits no constant at all. -/
theorem claim5_constant_recognition (source : List Char) (filename language : String)
    (node left : TSNode) (prev : List TSNode)
    (hty : node.ntype = "assignment")
    (hleft : child_by_field_name node "left" = some left)
    (hid : left.ntype = "identifier")
    (hq : quietList PYTHON_SPEC node.children = true) :
    (SpecConstName (sliceL source left.startByte left.endByte) →
      ∃ s, extract_constant node PYTHON_SPEC source filename language = some s
        ∧ walk_tree PYTHON_SPEC source filename language node prev none = [s]
        ∧ s.kind = "constant" ∧ s.parent = none
        ∧ s.name = String.mk (sliceL source left.startByte left.endByte)
        ∧ s.qualified_name = s.name
        ∧ s.signature
            = String.mk ((stripChars (sliceL source node.startByte node.endByte)).take 100))
    ∧ (¬ SpecConstName (sliceL source left.startByte left.endByte) →
        walk_tree PYTHON_SPEC source filename language node prev none = [])
    ∧ (∀ p s, s ∈ walk_tree PYTHON_SPEC source filename language node prev (some p) →
        s.kind ≠ "constant") := by
  obtain ⟨hpos, hneg⟩ :=
    extract_constant_eq_cases node left PYTHON_SPEC source filename language hty hleft hid
  refine ⟨?_, ?_, ?_⟩
  · intro hsc
    refine ⟨_, hpos hsc, ?_, rfl, rfl, rfl, rfl, rfl⟩
    rw [walk_tree_assignment source filename language node prev hty hq, hpos hsc]
  · intro hsc
    rw [walk_tree_assignment source filename language node prev hty hq, hneg hsc]
  · intro p s hs
    refine walk_tree_forall_under PYTHON_SPEC source filename language
      (fun s' => s'.kind ≠ "constant") ?_ node prev p s hs
    intro node' prevSibs p' s' h
    obtain ⟨-, -, -, -, k, hk, hcase⟩ := extract_symbol_some h
    rcases hcase with ⟨hpn, -⟩ | ⟨q, -, hkind⟩
    · simp at hpn
    · rcases python_kind_values hk with rfl | rfl <;> rw [hkind] <;> decide

theorem claim5_witness :
    assignMax.ntype = "assignment"
    ∧ child_by_field_name assignMax "left" = some idMax
    ∧ idMax.ntype = "identifier"
    ∧ quietList PYTHON_SPEC assignMax.children = true
    ∧ SpecConstName (sliceL srcMax idMax.startByte idMax.endByte)
    ∧ ∃ s, extract_constant assignMax PYTHON_SPEC srcMax "c.py" "python" = some s
        ∧ walk_tree PYTHON_SPEC srcMax "c.py" "python" assignMax [] none = [s]
        ∧ s.kind = "constant" ∧ s.parent = none
        ∧ s.name = String.mk (sliceL srcMax idMax.startByte idMax.endByte)
        ∧ s.qualified_name = s.name
        ∧ s.signature
            = String.mk ((stripChars (sliceL srcMax assignMax.startByte assignMax.endByte)).take 100) :=
  ⟨rfl, rfl, rfl, by decide, by decide,
    (claim5_constant_recognition srcMax "c.py" "python" assignMax idMax [] rfl rfl rfl
      (by decide)).1 (by decide)⟩

/-- C6: a node type mapped to `function` extracted under a non-null
enclosing symbol gets kind `method`; with a null context the mapped kind is
kept unchanged; and across the whole walk no symbol with a non-null
`parent` field ever has kind `function`. -/
theorem claim6_kind_promotion (spec : LanguageSpec) (source : List Char)
    (filename language : String) :
    (∀ node prevSibs p s,
      extract_symbol node spec source filename language prevSibs (some p) = some s →
      lookupKV spec.symbol_node_types node.ntype = some "function" → s.kind = "method")
    ∧ (∀ node prevSibs s k,
      extract_symbol node spec source filename language prevSibs none = some s →
      lookupKV spec.symbol_node_types node.ntype = some k → s.kind = k)
    ∧ (∀ node prev par s, s ∈ walk_tree spec source filename language node prev par →
        s.parent ≠ none → s.kind ≠ "function") := by
  refine ⟨?_, ?_, ?_⟩
  · intro node prevSibs p s h hf
    obtain ⟨-, -, -, -, k, hk, hcase⟩ := extract_symbol_some h
    rw [hk] at hf
    injection hf with hf
    subst hf
    rcases hcase with ⟨hpn, -⟩ | ⟨q, -, hkind⟩
    · simp at hpn
    · rw [hkind]
      decide
  · intro node prevSibs s k h hkk
    obtain ⟨-, -, -, -, k', hk', hcase⟩ := extract_symbol_some h
    rw [hk'] at hkk
    injection hkk with hkk
    subst hkk
    rcases hcase with ⟨-, hkind⟩ | ⟨q, hq, -⟩
    · exact hkind
    · simp at hq
  · intro node prev par s hs
    refine walk_tree_forall spec source filename language
      (fun s' => s'.parent ≠ none → s'.kind ≠ "function") ?_ ?_ node prev par s hs
    · intro node' prevSibs par' s' h hp
      obtain ⟨-, hpar', -, -, k, hk, hcase⟩ := extract_symbol_some h
      rcases hcase with ⟨hpn, hkind⟩ | ⟨q, hq, hkind⟩
      · subst hpn
        simp at hpar'
        exact absurd hpar' hp
      · rw [hkind]
        cases hkf : (k == "function") with
        | true => simp
        | false =>
          simp only [Bool.false_eq_true, if_false]
          intro hcon
          subst hcon
          simp at hkf
    · intro node' s' hc h hp
      obtain ⟨-, hpn, -, -⟩ := extract_constant_some h
      exact absurd hpn hp

theorem claim6_witness :
    (∃ s, extract_symbol defM PYTHON_SPEC src1 "f.py" "python" [] (some c6parent) = some s
      ∧ s.kind = "method")
    ∧ (∃ s, extract_symbol defM PYTHON_SPEC src1 "f.py" "python" [] none = some s
      ∧ s.kind = "function") := by
  have h := claim6_kind_promotion PYTHON_SPEC src1 "f.py" "python"
  constructor
  · obtain ⟨s, hs⟩ : ∃ s,
        extract_symbol defM PYTHON_SPEC src1 "f.py" "python" [] (some c6parent) = some s :=
      ⟨_, rfl⟩
    exact ⟨s, hs, h.1 defM [] c6parent s hs (by decide)⟩
  · obtain ⟨s, hs⟩ : ∃ s,
        extract_symbol defM PYTHON_SPEC src1 "f.py" "python" [] none = some s :=
      ⟨_, rfl⟩
    exact ⟨s, hs, h.2.1 defM [] s "function" hs (by decide)⟩

/-- C7: a symbol-table node marked as containing a parse error contributes
no symbol for itself, but the walk still descends into its children, and
the sibling loop always continues past any node. -/
theorem claim7_error_subtree (spec : LanguageSpec) (source : List Char)
    (filename language : String) (node : TSNode) (prev : List TSNode) (par : Option Symbol)
    (hsym : memKV spec.symbol_node_types node.ntype = true)
    (herr : node.hasError = true)
    (hnc : spec.constant_patterns.contains node.ntype = false) :
    extract_symbol node spec source filename language prev par = none
    ∧ walk_tree spec source filename language node prev par
        = walk_children spec source filename language node.children [] par
    ∧ ∀ c cs prev2, walk_children spec source filename language (.tcons c cs) prev2 par
        = walk_tree spec source filename language c prev2 par
          ++ walk_children spec source filename language cs (prev2 ++ [c]) par := by
  refine ⟨extract_symbol_of_hasError herr, ?_, fun c cs prev2 => rfl⟩
  cases node with
  | mk t nm he sb eb sr er fs kids =>
    simp only [ntype_mk] at hsym hnc
    simp only [children_mk]
    have hnone : extract_symbol (TSNode.mk t nm he sb eb sr er fs kids)
        spec source filename language prev par = none := extract_symbol_of_hasError herr
    simp only [walk_tree]
    simp [hsym, hnone, hnc]
    intro hmem
    exact absurd hmem (by simpa using hnc)

theorem claim7_witness :
    memKV PYTHON_SPEC.symbol_node_types badFn.ntype = true
    ∧ badFn.hasError = true
    ∧ PYTHON_SPEC.constant_patterns.contains badFn.ntype = false
    ∧ extract_symbol badFn PYTHON_SPEC src7 "e.py" "python" [] none = none
    ∧ walk_tree PYTHON_SPEC src7 "e.py" "python" badFn [] none
        = walk_children PYTHON_SPEC src7 "e.py" "python" badFn.children [] none
    ∧ (parse_file module7 src7 "e.py" "python").map (fun s => s.qualified_name) = ["ok"] := by
  have h := claim7_error_subtree PYTHON_SPEC src7 "e.py" "python" badFn [] none
    (by decide) (by decide) (by decide)
  exact ⟨by decide, by decide, by decide, h.1, h.2.1, by decide⟩

/-- C10: `_extract_constant` accepts only nodes whose type tag is literally
`assignment`; since the javascript, typescript, go, rust and java tables
list only other node types in `constant_patterns` (and map no symbol node
type to `constant`), those languages can never emit a constant symbol. -/
theorem claim10_constants_only_from_assignment :
    (∀ node spec source filename language s,
      extract_constant node spec source filename language = some s →
        node.ntype = "assignment" ∧ s.kind = "constant")
    ∧ (∀ language tree source filename,
        language ∈ (["javascript", "typescript", "go", "rust", "java"] : List String) →
        ∀ s ∈ parse_file tree source filename language, s.kind ≠ "constant") := by
  constructor
  · intro node spec source filename language s h
    obtain ⟨-, -, hk, hty⟩ := extract_constant_some h
    exact ⟨hty, hk⟩
  · intro language tree source filename hlang s hs
    have key : ∀ spec : LanguageSpec,
        lookupKV LANGUAGE_REGISTRY language = some spec →
        (∀ p ∈ spec.symbol_node_types, p.2 ≠ "constant") →
        spec.constant_patterns.contains "assignment" = false →
        s.kind ≠ "constant" := by
      intro spec hspec hvals hpat
      unfold parse_file at hs
      rw [hspec] at hs
      refine walk_tree_forall spec source filename language (fun s' => s'.kind ≠ "constant")
        ?_ ?_ tree [] none s hs
      · intro node prevSibs par s' h
        obtain ⟨-, -, -, -, k, hk, hcase⟩ := extract_symbol_some h
        obtain ⟨p, hp, hv⟩ := lookupKV_mem _ _ _ hk
        have hkc : k ≠ "constant" := hv ▸ hvals p hp
        rcases hcase with ⟨-, hkind⟩ | ⟨q, -, hkind⟩
        · rw [hkind]
          exact hkc
        · rw [hkind]
          cases hkf : (k == "function") with
          | true => simp
          | false =>
            simp only [Bool.false_eq_true, if_false]
            exact hkc
      · intro node s' hc h
        obtain ⟨-, -, -, hty⟩ := extract_constant_some h
        rw [hty] at hc
        rw [hc] at hpat
        exact absurd hpat (by simp)
    simp only [List.mem_cons, List.not_mem_nil, or_false] at hlang
    rcases hlang with rfl | rfl | rfl | rfl | rfl
    · exact key JAVASCRIPT_SPEC (by rfl) (by decide) (by decide)
    · exact key TYPESCRIPT_SPEC (by rfl) (by decide) (by decide)
    · exact key GO_SPEC (by rfl) (by decide) (by decide)
    · exact key RUST_SPEC (by rfl) (by decide) (by decide)
    · exact key JAVA_SPEC (by rfl) (by decide) (by decide)

theorem claim10_witness :
    ("go" : String) ∈ (["javascript", "typescript", "go", "rust", "java"] : List String)
    ∧ (∀ s ∈ parse_file module1 src1 "f.py" "go", s.kind ≠ "constant")
    ∧ ∃ s, extract_constant assignMax PYTHON_SPEC srcMax "c.py" "python" = some s
        ∧ assignMax.ntype = "assignment" ∧ s.kind = "constant" := by
  refine ⟨by decide, ?_, ?_⟩
  · intro s hs
    exact claim10_constants_only_from_assignment.2 "go" module1 src1 "f.py" (by decide) s hs
  · obtain ⟨s, hs⟩ : ∃ s,
        extract_constant assignMax PYTHON_SPEC srcMax "c.py" "python" = some s := ⟨_, rfl⟩
    obtain ⟨hty, hk⟩ :=
      claim10_constants_only_from_assignment.1 assignMax PYTHON_SPEC srcMax "c.py" "python" s hs
    exact ⟨s, hs, hty, hk⟩

/-- C8: in the byte-accurate model, whenever a byte range that must be
decoded during name, signature or docstring extraction is not valid UTF-8,
the extraction result is the named failure `ExtractErr.invalidEncoding`
(the propagated `UnicodeDecodeError`), and a successful result is always
exactly the decode of the node's own byte range — never a substituted
placeholder. -/
theorem claim8_invalid_encoding :
    (∀ node spec src f nn,
      node.ntype ≠ "arrow_function" → node.ntype ≠ "type_declaration" →
      lookupKV spec.name_fields node.ntype = some f →
      child_by_field_name node f = some nn →
      extract_name_b node spec src = (decodeRange src nn.startByte nn.endByte).map some)
    ∧ (∀ node spec src f nn,
      node.ntype ≠ "arrow_function" → node.ntype ≠ "type_declaration" →
      lookupKV spec.name_fields node.ntype = some f →
      child_by_field_name node f = some nn →
      utf8Decode (sliceB src nn.startByte nn.endByte) = none →
      extract_name_b node spec src = .error .invalidEncoding)
    ∧ (∀ node spec src endB,
      (match child_by_field_name node "body" with
       | some body => body.startByte
       | none => node.endByte) = endB →
      utf8Decode (sliceB src node.startByte endB) = none →
      build_signature_b node spec src = .error .invalidEncoding)
    ∧ (∀ node spec src s endB,
      (match child_by_field_name node "body" with
       | some body => body.startByte
       | none => node.endByte) = endB →
      build_signature_b node spec src = .ok s →
      ∃ raw, utf8Decode (sliceB src node.startByte endB) = some raw
        ∧ s = String.mk (rstripSet ['{', ':', ' ', '\n', '\t'] (stripChars raw)))
    ∧ (∀ src child rest,
      child.ntype ≠ "expression_statement" → child.ntype = "string" →
      utf8Decode (sliceB src child.startByte child.endByte) = none →
      docstringFromChildren_b src (child :: rest) = .error .invalidEncoding) := by
  have key : ∀ node spec src (f : String) nn,
      node.ntype ≠ "arrow_function" → node.ntype ≠ "type_declaration" →
      lookupKV spec.name_fields node.ntype = some f →
      child_by_field_name node f = some nn →
      extract_name_b node spec src = (decodeRange src nn.startByte nn.endByte).map some := by
    intro node spec src f nn h1 h2 hf hnn
    have hb1 : (node.ntype == "arrow_function") = false := by
      simpa using h1
    have hb2 : (node.ntype == "type_declaration") = false := by
      simpa using h2
    unfold extract_name_b
    rw [hb1, hb2, hf]
    simp [hnn]
  refine ⟨key, ?_, ?_, ?_, ?_⟩
  · intro node spec src f nn h1 h2 hf hnn hdec
    rw [key node spec src f nn h1 h2 hf hnn]
    unfold decodeRange
    rw [hdec]
    rfl
  · intro node spec src endB hend hdec
    unfold build_signature_b
    rw [hend]
    unfold decodeRange
    dsimp only
    rw [hdec]
    rfl
  · intro node spec src s endB hend hok
    unfold build_signature_b at hok
    rw [hend] at hok
    unfold decodeRange at hok
    dsimp only at hok
    cases hdec : utf8Decode (sliceB src node.startByte endB) with
    | some raw =>
      rw [hdec] at hok
      refine ⟨raw, rfl, ?_⟩
      simp only [Except.map] at hok
      injection hok with hok
      rw [← hok]
    | none =>
      rw [hdec] at hok
      exact absurd hok (by simp [Except.map])
  · intro src child rest h1 h2 hdec
    have hb1 : (child.ntype == "expression_statement") = false := by
      simpa using h1
    have hb2 : (child.ntype == "string") = true := by
      simp [h2]
    unfold docstringFromChildren_b
    rw [hb1, hb2]
    simp only [Bool.false_eq_true, if_false, if_true]
    unfold decodeRange
    rw [hdec]
    rfl

theorem claim8_witness :
    fnNodeBad.ntype ≠ "arrow_function"
    ∧ fnNodeBad.ntype ≠ "type_declaration"
    ∧ lookupKV PYTHON_SPEC.name_fields fnNodeBad.ntype = some "name"
    ∧ child_by_field_name fnNodeBad "name" = some nameNodeBad
    ∧ utf8Decode (sliceB srcBad nameNodeBad.startByte nameNodeBad.endByte) = none
    ∧ extract_name_b fnNodeBad PYTHON_SPEC srcBad = .error .invalidEncoding
    ∧ utf8Decode (sliceB srcBad fnNodeBad.startByte fnNodeBad.endByte) = none
    ∧ build_signature_b fnNodeBad PYTHON_SPEC srcBad = .error .invalidEncoding := by
  refine ⟨by decide, by decide, rfl, rfl, rfl, ?_, rfl, ?_⟩
  · exact claim8_invalid_encoding.2.1 fnNodeBad PYTHON_SPEC srcBad "name" nameNodeBad
      (by decide) (by decide) rfl rfl rfl
  · exact claim8_invalid_encoding.2.2.1 fnNodeBad PYTHON_SPEC srcBad fnNodeBad.endByte
      rfl rfl

/-! ## Hierarchy lemmas -/

@[simp] theorem symbol_mk (sym : Symbol) (cs : SNForest) :
    (SymbolNode.mk sym cs).symbol = sym := rfl

@[simp] theorem children_mk_sn (sym : Symbol) (cs : SNForest) :
    (SymbolNode.mk sym cs).children = cs := rfl

theorem snocF_flatten (d : Nat) (c : SymbolNode) :
    ∀ F : SNForest, flattenForest d (snocF F c) = flattenForest d F ++ flattenNode d c
  | .nil => by simp [snocF, flattenForest]
  | .cons n f => by simp [snocF, flattenForest, snocF_flatten d c f]

theorem snocF_ids (c : SymbolNode) :
    ∀ F : SNForest, forestIds (snocF F c) = forestIds F ++ nodeIds c
  | .nil => by simp [snocF, forestIds]
  | .cons n f => by simp [snocF, forestIds, snocF_ids c f]

theorem snocF_ms (c : SymbolNode) :
    ∀ F : SNForest, msOfForest (snocF F c) = msOfForest F + msOfNode c
  | .nil => by simp [snocF, msOfForest]
  | .cons n f => by simp [snocF, msOfForest, snocF_ms c f, add_assoc]

theorem snocF_childSyms (x : String) (c : SymbolNode) :
    ∀ F : SNForest, childSymsF x (snocF F c) = childSymsF x F ++ childSymsN x c
  | .nil => by simp [snocF, childSymsF]
  | .cons n f => by simp [snocF, childSymsF, snocF_childSyms x c f]

theorem topSyms_snoc (c : SymbolNode) :
    ∀ F : SNForest, topSyms (snocF F c) = topSyms F ++ [c.symbol]
  | .nil => by simp [snocF, topSyms]
  | .cons n f => by simp [snocF, topSyms, topSyms_snoc c f]

theorem attachNode_symbol (x : String) (c : SymbolNode) (n : SymbolNode) :
    (attachNode x c n).symbol = n.symbol := by
  cases n with
  | mk sym cs =>
    simp only [attachNode]
    split <;> rfl

theorem topSyms_attach (x : String) (c : SymbolNode) :
    ∀ F : SNForest, topSyms (attachForest x c F) = topSyms F
  | .nil => by simp [attachForest]
  | .cons n f => by
    simp [attachForest, topSyms, attachNode_symbol, topSyms_attach x c f]

mutual

theorem attachNode_noop (x : String) (c : SymbolNode) :
    ∀ n : SymbolNode, x ∉ nodeIds n → attachNode x c n = n
  | .mk sym cs => by
    intro hx
    simp only [nodeIds, List.mem_cons, not_or] at hx
    obtain ⟨h1, h2⟩ := hx
    simp only [attachNode]
    rw [if_neg (by simpa using fun hc => h1 hc.symm), attachForest_noop x c cs h2]

theorem attachForest_noop (x : String) (c : SymbolNode) :
    ∀ F : SNForest, x ∉ forestIds F → attachForest x c F = F
  | .nil => by
    intro hx
    rfl
  | .cons n f => by
    intro hx
    simp only [forestIds, List.mem_append, not_or] at hx
    obtain ⟨h1, h2⟩ := hx
    simp only [attachForest]
    rw [attachNode_noop x c n h1, attachForest_noop x c f h2]

end

mutual

theorem childSymsN_noop (x : String) :
    ∀ n : SymbolNode, x ∉ nodeIds n → childSymsN x n = []
  | .mk sym cs => by
    intro hx
    simp only [nodeIds, List.mem_cons, not_or] at hx
    obtain ⟨h1, h2⟩ := hx
    simp only [childSymsN]
    rw [if_neg (by simpa using fun hc => h1 hc.symm), childSymsF_noop x cs h2]
    simp

theorem childSymsF_noop (x : String) :
    ∀ F : SNForest, x ∉ forestIds F → childSymsF x F = []
  | .nil => by
    intro hx
    rfl
  | .cons n f => by
    intro hx
    simp only [forestIds, List.mem_append, not_or] at hx
    obtain ⟨h1, h2⟩ := hx
    simp only [childSymsF]
    rw [childSymsN_noop x n h1, childSymsF_noop x f h2]
    simp

end

mutual

theorem flattenNode_ms (d : Nat) :
    ∀ n : SymbolNode, (((flattenNode d n).map Prod.fst : List Symbol) : Multiset Symbol)
      = msOfNode n
  | .mk sym cs => by
    simp only [flattenNode, msOfNode, List.map_cons]
    rw [← flattenForest_ms (d + 1) cs]
    simp

theorem flattenForest_ms (d : Nat) :
    ∀ F : SNForest, (((flattenForest d F).map Prod.fst : List Symbol) : Multiset Symbol)
      = msOfForest F
  | .nil => by simp [flattenForest, msOfForest]
  | .cons n f => by
    simp only [flattenForest, msOfForest, List.map_append]
    rw [← flattenNode_ms d n, ← flattenForest_ms d f]
    simp

end

mutual

theorem msOfNode_ids :
    ∀ n : SymbolNode, (msOfNode n).map Symbol.id = (↑(nodeIds n) : Multiset String)
  | .mk sym cs => by
    simp only [msOfNode, nodeIds, Multiset.map_cons]
    rw [msOfForest_ids cs]
    simp

theorem msOfForest_ids :
    ∀ F : SNForest, (msOfForest F).map Symbol.id = (↑(forestIds F) : Multiset String)
  | .nil => by simp [msOfForest, forestIds]
  | .cons n f => by
    simp only [msOfForest, forestIds, Multiset.map_add]
    rw [msOfNode_ids n, msOfForest_ids f]
    simp

end

mutual

/-- Attaching a fresh leaf under the (unique) node with id `x` splits the
flatten: the old flatten is `A ++ B` with `x`'s entry `(p, dx)` inside `A`,
and the new flatten inserts `(s, dx + 1)` between them. -/
theorem attach_split_node (x : String) (s : Symbol) (d : Nat) :
    ∀ n : SymbolNode, (nodeIds n).Nodup → x ∈ nodeIds n →
      ∃ A B p dx, flattenNode d n = A ++ B ∧ (p, dx) ∈ A ∧ p.id = x ∧
        flattenNode d (attachNode x (.mk s .nil) n) = A ++ (s, dx + 1) :: B
  | .mk sym cs => by
    intro hnd hx
    by_cases hsx : sym.id = x
    · refine ⟨(sym, d) :: flattenForest (d + 1) cs, [], sym, d, by simp [flattenNode],
        by simp, hsx, ?_⟩
      simp only [attachNode]
      rw [if_pos (show (sym.id == x) = true by simp [hsx])]
      simp [flattenNode, snocF_flatten, flattenForest]
    · have hxc : x ∈ forestIds cs := by
        have hx' : x = sym.id ∨ x ∈ forestIds cs := by simpa [nodeIds] using hx
        rcases hx' with h | h
        · exact absurd h.symm hsx
        · exact h
      have hndc : (forestIds cs).Nodup :=
        (List.nodup_cons.mp (by simpa [nodeIds] using hnd)).2
      obtain ⟨A, B, p, dx, hfl, hpA, hpid, hfl'⟩ := attach_split_forest x s (d + 1) cs hndc hxc
      refine ⟨(sym, d) :: A, B, p, dx, by simp [flattenNode, hfl], by simp [hpA], hpid, ?_⟩
      simp only [attachNode]
      rw [if_neg (show ¬ ((sym.id == x) = true) by simp [hsx])]
      simp [flattenNode, hfl']

theorem attach_split_forest (x : String) (s : Symbol) (d : Nat) :
    ∀ F : SNForest, (forestIds F).Nodup → x ∈ forestIds F →
      ∃ A B p dx, flattenForest d F = A ++ B ∧ (p, dx) ∈ A ∧ p.id = x ∧
        flattenForest d (attachForest x (.mk s .nil) F) = A ++ (s, dx + 1) :: B
  | .nil => by
    intro hnd hx
    simp [forestIds] at hx
  | .cons n f => by
    intro hnd hx
    have hnd' := List.nodup_append.mp (by simpa [forestIds] using hnd)
    have hx' : x ∈ nodeIds n ∨ x ∈ forestIds f := by simpa [forestIds] using hx
    rcases hx' with hxn | hxf
    · have hnf : x ∉ forestIds f := fun hc => hnd'.2.2 hxn hc
      obtain ⟨A, B, p, dx, hfl, hpA, hpid, hfl'⟩ := attach_split_node x s d n hnd'.1 hxn
      refine ⟨A, B ++ flattenForest d f, p, dx, by simp [flattenForest, hfl], hpA, hpid, ?_⟩
      simp only [flattenForest, attachForest]
      rw [attachForest_noop x (.mk s .nil) f hnf, hfl']
      simp
    · have hxn' : x ∉ nodeIds n := fun hc => hnd'.2.2 hc hxf
      obtain ⟨A, B, p, dx, hfl, hpA, hpid, hfl'⟩ := attach_split_forest x s d f hnd'.2.1 hxf
      refine ⟨flattenNode d n ++ A, B, p, dx, by simp [flattenForest, hfl], by simp [hpA],
        hpid, ?_⟩
      simp only [flattenForest, attachForest]
      rw [attachNode_noop x (.mk s .nil) n hxn', hfl']
      simp

end

theorem attach_ms (x : String) (s : Symbol) (F : SNForest)
    (hnd : (forestIds F).Nodup) (hx : x ∈ forestIds F) :
    msOfForest (attachForest x (.mk s .nil) F) = msOfForest F + {s} := by
  obtain ⟨A, B, p, dx, hfl, -, -, hfl'⟩ := attach_split_forest x s 0 F hnd hx
  rw [← flattenForest_ms 0, hfl', ← flattenForest_ms 0 F, hfl]
  simp only [List.map_append, List.map_cons]
  have hperm : List.Perm (List.map Prod.fst A ++ s :: List.map Prod.fst B)
      (s :: (List.map Prod.fst A ++ List.map Prod.fst B)) := List.perm_middle
  have hco : ((List.map Prod.fst A ++ s :: List.map Prod.fst B : List Symbol) : Multiset Symbol)
      = ((s :: (List.map Prod.fst A ++ List.map Prod.fst B) : List Symbol) : Multiset Symbol) :=
    Multiset.coe_eq_coe.mpr hperm
  rw [hco, add_comm, Multiset.singleton_add]
  simp

theorem attach_ids (x : String) (s : Symbol) (F : SNForest)
    (hnd : (forestIds F).Nodup) (hx : x ∈ forestIds F) :
    (↑(forestIds (attachForest x (.mk s .nil) F)) : Multiset String)
      = ↑(forestIds F) + {s.id} := by
  rw [← msOfForest_ids, ← msOfForest_ids, attach_ms x s F hnd hx]
  simp

mutual

theorem attach_childSyms_node (x : String) (s : Symbol) (y : String) :
    ∀ n : SymbolNode, (nodeIds n).Nodup → x ∈ nodeIds n →
      childSymsN y (attachNode x (.mk s .nil) n)
        = childSymsN y n ++ (if y = x then [s] else [])
  | .mk sym cs => by
    intro hnd hx
    by_cases hsx : sym.id = x
    · have hnc : sym.id ∉ forestIds cs :=
        (List.nodup_cons.mp (by simpa [nodeIds] using hnd)).1
      simp only [attachNode]
      rw [if_pos (show (sym.id == x) = true by simp [hsx])]
      by_cases hyx : y = x
      · have hsy : (sym.id == y) = true := by simp [hsx, hyx]
        simp only [childSymsN, hsy, if_true, topSyms_snoc, snocF_childSyms]
        rw [childSymsF_noop y cs (by rw [hyx, ← hsx]; exact hnc)]
        simp [childSymsN, childSymsF, topSyms, hyx]
      · have hsy : (sym.id == y) = false := by
          simp [hsx]
          exact fun hc => hyx hc.symm
        simp only [childSymsN, hsy, Bool.false_eq_true, if_false, snocF_childSyms]
        simp [childSymsN, childSymsF, topSyms, hyx]
    · have hxc : x ∈ forestIds cs := by
        have hx' : x = sym.id ∨ x ∈ forestIds cs := by simpa [nodeIds] using hx
        rcases hx' with h | h
        · exact absurd h.symm hsx
        · exact h
      have hndc : (forestIds cs).Nodup :=
        (List.nodup_cons.mp (by simpa [nodeIds] using hnd)).2
      simp only [attachNode]
      rw [if_neg (show ¬ ((sym.id == x) = true) by simp [hsx])]
      simp only [childSymsN, attach_childSyms_forest x s y cs hndc hxc]
      simp [topSyms_attach]

theorem attach_childSyms_forest (x : String) (s : Symbol) (y : String) :
    ∀ F : SNForest, (forestIds F).Nodup → x ∈ forestIds F →
      childSymsF y (attachForest x (.mk s .nil) F)
        = childSymsF y F ++ (if y = x then [s] else [])
  | .nil => by
    intro hnd hx
    simp [forestIds] at hx
  | .cons n f => by
    intro hnd hx
    have hnd' := List.nodup_append.mp (by simpa [forestIds] using hnd)
    have hx' : x ∈ nodeIds n ∨ x ∈ forestIds f := by simpa [forestIds] using hx
    rcases hx' with hxn | hxf
    · have hnf : x ∉ forestIds f := fun hc => hnd'.2.2 hxn hc
      simp only [childSymsF, attachForest]
      rw [attachForest_noop x (.mk s .nil) f hnf,
        attach_childSyms_node x s y n hnd'.1 hxn]
      by_cases hyx : y = x
      · rw [childSymsF_noop y f (hyx ▸ hnf)]
        simp [hyx]
      · simp [hyx]
    · have hxn' : x ∉ nodeIds n := fun hc => hnd'.2.2 hc hxf
      simp only [childSymsF, attachForest]
      rw [attachNode_noop x (.mk s .nil) n hxn',
        attach_childSyms_forest x s y f hnd'.2.1 hxf]
      simp

end

theorem BeforeIn_insert {p t : Symbol} {e : Symbol × Nat} {A B : List (Symbol × Nat)}
    (hb : BeforeIn (A ++ B) p t) : BeforeIn (A ++ e :: B) p t := by
  obtain ⟨A0, B0, hsplit, hp, ht⟩ := hb
  rcases List.append_eq_append_iff.mp hsplit with ⟨k, hk1, hk2⟩ | ⟨k, hk1, hk2⟩
  · -- A0 = A ++ k, B = k ++ B0
    refine ⟨A ++ e :: k, B0, by simp [hk1, hk2], ?_, ht⟩
    obtain ⟨dp, hdp⟩ := hp
    rw [hk1, List.mem_append] at hdp
    rcases hdp with hdp | hdp
    · exact ⟨dp, by simp [hdp]⟩
    · exact ⟨dp, by simp [hdp]⟩
  · -- A = A0 ++ k, B0 = k ++ B
    refine ⟨A0, k ++ e :: B, by simp [hk1, hk2], hp, ?_⟩
    obtain ⟨dt, hdt⟩ := ht
    rw [hk2, List.mem_append] at hdt
    rcases hdt with hdt | hdt
    · exact ⟨dt, by simp [hdt]⟩
    · exact ⟨dt, by simp [hdt]⟩

theorem BeforeIn_snoc {p t : Symbol} {e : Symbol × Nat} {L : List (Symbol × Nat)}
    (hb : BeforeIn L p t) : BeforeIn (L ++ [e]) p t := by
  obtain ⟨A0, B0, rfl, hp, ht⟩ := hb
  refine ⟨A0, B0 ++ [e], by simp, hp, ?_⟩
  obtain ⟨dt, hdt⟩ := ht
  exact ⟨dt, by simp [hdt]⟩

theorem BeforeIn_trans {p q t : Symbol} {L : List (Symbol × Nat)}
    (hnd : (L.map Prod.fst).Nodup)
    (h1 : BeforeIn L p q) (h2 : BeforeIn L q t) : BeforeIn L p t := by
  obtain ⟨A1, B1, hL1, hp1, hq1⟩ := h1
  obtain ⟨A2, B2, hL2, hq2, ht2⟩ := h2
  have hsplit : A1 ++ B1 = A2 ++ B2 := by rw [← hL1, ← hL2]
  rcases List.append_eq_append_iff.mp hsplit with ⟨k, hk1, hk2⟩ | ⟨k, hk1, hk2⟩
  · -- A2 = A1 ++ k, B1 = k ++ B2
    refine ⟨A2, B2, hL2, ?_, ht2⟩
    obtain ⟨dp, hdp⟩ := hp1
    exact ⟨dp, by rw [hk1]; simp [hdp]⟩
  · -- A1 = A2 ++ k, B2 = k ++ B1 : q lies both in A2 and in B2 ⊆ B1-side
    exfalso
    obtain ⟨d1, hd1⟩ := hq1
    obtain ⟨d2, hd2⟩ := hq2
    have hqB : q ∈ (B1.map Prod.fst) := List.mem_map_of_mem Prod.fst hd1
    have hqA : q ∈ (A1.map Prod.fst) := by
      rw [hk1]
      have : q ∈ (A2.map Prod.fst) := List.mem_map_of_mem Prod.fst hd2
      simp [this]
    rw [hL1] at hnd
    simp only [List.map_append, List.nodup_append] at hnd
    exact hnd.2.2 hqA hqB

theorem pair_fst_unique {L : List (Symbol × Nat)} (h : (L.map Prod.fst).Nodup)
    {a : Symbol} {d1 d2 : Nat} (h1 : (a, d1) ∈ L) (h2 : (a, d2) ∈ L) : d1 = d2 := by
  induction L with
  | nil => simp at h1
  | cons e rest ih =>
    simp only [List.map_cons, List.nodup_cons] at h
    simp only [List.mem_cons] at h1 h2
    rcases h1 with h1 | h1 <;> rcases h2 with h2 | h2
    · have h3 := h2.trans h1.symm
      injection h3 with h4 h5
      exact h5.symm
    · exfalso
      have ha : a ∈ List.map Prod.fst rest := List.mem_map_of_mem Prod.fst h2
      rw [← h1] at h
      exact h.1 ha
    · exfalso
      have ha : a ∈ List.map Prod.fst rest := List.mem_map_of_mem Prod.fst h1
      rw [← h2] at h
      exact h.1 ha
    · exact ih h.2 h1 h2

theorem nodup_id_inj {l : List Symbol} (h : (l.map Symbol.id).Nodup) {a b : Symbol}
    (ha : a ∈ l) (hb : b ∈ l) (hid : a.id = b.id) : a = b := by
  induction l with
  | nil => simp at ha
  | cons u rest ih =>
    simp only [List.map_cons, List.nodup_cons] at h
    simp only [List.mem_cons] at ha hb
    rcases ha with rfl | ha <;> rcases hb with rfl | hb
    · rfl
    · exfalso
      have := List.mem_map_of_mem Symbol.id hb
      rw [← hid] at this
      exact h.1 this
    · exfalso
      have := List.mem_map_of_mem Symbol.id ha
      rw [hid] at this
      exact h.1 this
    · exact ih h.2 ha hb

theorem backRefsGo_spec : ∀ (l : List Symbol) (seen : List String),
    backRefsGo seen l = true →
    ∀ l1 t l2, l = l1 ++ t :: l2 → ∀ pid, t.parent = some pid →
      pid ∈ seen ++ l1.map Symbol.id := by
  intro l
  induction l with
  | nil =>
    intro seen h l1 t l2 heq
    cases l1 <;> simp at heq
  | cons u rest ih =>
    intro seen h l1 t l2 heq pid hpid
    rw [backRefsGo, Bool.and_eq_true] at h
    cases l1 with
    | nil =>
      simp only [List.nil_append, List.cons.injEq] at heq
      obtain ⟨rfl, rfl⟩ := heq
      rw [hpid] at h
      have := h.1
      simpa using this
    | cons v l1' =>
      simp only [List.cons_append, List.cons.injEq] at heq
      obtain ⟨rfl, heq2⟩ := heq
      have hrec := ih (seen ++ [u.id]) h.2 l1' t l2 heq2 pid hpid
      simp only [List.append_assoc, List.singleton_append] at hrec
      simpa using hrec

/-- A successful executable backward-reference check gives the
strictly-earlier-parent property at every split of the list. -/
theorem backRefsB_spec {l : List Symbol} (h : backRefsB l = true) :
    ∀ l1 t l2, l = l1 ++ t :: l2 → ∀ pid, t.parent = some pid →
      pid ∈ l1.map Symbol.id := by
  intro l1 t l2 heq pid hpid
  simpa using backRefsGo_spec l [] h l1 t l2 heq pid hpid

theorem flatten_mem_syms {F : SNForest} {pre : List Symbol} (hms : msOfForest F = ↑pre)
    {u : Symbol} {d : Nat} (h : (u, d) ∈ flattenForest 0 F) : u ∈ pre := by
  have hm : u ∈ (flattenForest 0 F).map Prod.fst := List.mem_map_of_mem Prod.fst h
  have hco : (((flattenForest 0 F).map Prod.fst : List Symbol) : Multiset Symbol) = ↑pre := by
    rw [flattenForest_ms]
    exact hms
  exact (Multiset.coe_eq_coe.mp hco).mem_iff.mp hm

theorem flatten_fst_nodup {F : SNForest} {pre : List Symbol} (hms : msOfForest F = ↑pre)
    (hnd : pre.Nodup) : ((flattenForest 0 F).map Prod.fst).Nodup := by
  have hco : (((flattenForest 0 F).map Prod.fst : List Symbol) : Multiset Symbol) = ↑pre := by
    rw [flattenForest_ms]
    exact hms
  exact (Multiset.coe_eq_coe.mp hco).nodup_iff.mpr hnd

theorem childSymsN_leaf (x : String) (s : Symbol) :
    childSymsN x (.mk s .nil) = [] := by
  simp [childSymsN, childSymsF, topSyms]

/-- One linking step, resolvable parent: the symbol's node is appended to
its parent's children. -/
theorem hier_step_attach (ids : List String) (pre : List Symbol) (s : Symbol) (F : SNForest)
    (pid : String)
    (hpid : s.parent = some pid)
    (hmem : pid ∈ ids)
    (hback : pid ∈ pre.map Symbol.id)
    (hnd_pre : (pre.map Symbol.id).Nodup)
    (hs_new : s.id ∉ pre.map Symbol.id)
    (hnoforward : ∀ t ∈ pre, t.parent ≠ some s.id)
    (hinv : HierInv ids pre F) :
    HierInv ids (pre ++ [s]) (attachForest pid (.mk s .nil) F) := by
  obtain ⟨hIds, hMs, hCS, hDepth, hRoots, hOrder⟩ := hinv
  have hndF : (forestIds F).Nodup := hIds.nodup_iff.mpr hnd_pre
  have hxF : pid ∈ forestIds F := hIds.mem_iff.mpr hback
  have hpreNodup : pre.Nodup := hnd_pre.of_map
  have hndFL : ((flattenForest 0 F).map Prod.fst).Nodup := flatten_fst_nodup hMs hpreNodup
  obtain ⟨A, B, p0, dx, hfl, hp0A, hp0id, hfl'⟩ := attach_split_forest pid s 0 F hndF hxF
  have hp0FL : (p0, dx) ∈ flattenForest 0 F := by
    rw [hfl]
    exact List.mem_append_left _ hp0A
  have hp0pre : p0 ∈ pre := flatten_mem_syms hMs hp0FL
  have hmemFL' : ∀ u (d : Nat),
      (u, d) ∈ flattenForest 0 (attachForest pid (.mk s .nil) F) ↔
        (u, d) ∈ flattenForest 0 F ∨ (u, d) = (s, dx + 1) := by
    intro u d
    rw [hfl', hfl]
    simp only [List.mem_append, List.mem_cons]
    tauto
  refine ⟨?_, ?_, ?_, ?_, ?_, ?_⟩
  · refine Multiset.coe_eq_coe.mp ?_
    rw [attach_ids pid s F hndF hxF, Multiset.coe_eq_coe.mpr hIds, List.map_append]
    rw [← Multiset.coe_singleton, Multiset.coe_add]
    rfl
  · rw [attach_ms pid s F hndF hxF, hMs, ← Multiset.coe_singleton, Multiset.coe_add]
  · intro x hx
    rw [attach_childSyms_forest pid s x F hndF hxF, hCS x hx, List.filter_append]
    by_cases hxp : x = pid
    · have hps : (s.parent == some pid) = true := by simp [hpid]
      simp [hxp, List.filter_cons, hps]
    · have hps : (s.parent == some x) = false := by
        simp only [hpid]
        simp
        exact fun hc => hxp hc.symm
      simp [List.filter_cons, hps, hxp]
  · intro s' p' ds dp hs' hp' hpar
    rw [hmemFL' s' ds] at hs'
    rw [hmemFL' p' dp] at hp'
    rcases hs' with hs' | hs' <;> rcases hp' with hp' | hp'
    · exact hDepth s' p' ds dp hs' hp' hpar
    · exfalso
      injection hp' with hp1 hp2
      rw [hp1] at hpar
      exact hnoforward s' (flatten_mem_syms hMs hs') hpar
    · injection hs' with hs1 hs2
      rw [hs1] at hpar
      rw [hpar] at hpid
      injection hpid with hpp
      have hp'pre : p' ∈ pre := flatten_mem_syms hMs hp'
      have hp'p0 : p' = p0 := nodup_id_inj hnd_pre hp'pre hp0pre (by rw [hpp, hp0id])
      have hdd : dp = dx := pair_fst_unique hndFL (hp'p0 ▸ hp') hp0FL
      rw [hs2, hdd]
    · exfalso
      injection hs' with hs1 hs2
      injection hp' with hp1 hp2
      rw [hs1, hp1] at hpar
      rw [hpar] at hpid
      injection hpid with hpp
      exact hs_new (by rw [hpp]; exact hback)
  · intro t ht htun
    rw [List.mem_append] at ht
    rcases ht with ht | ht
    · rw [hmemFL' t 0]
      exact Or.inl (hRoots t ht htun)
    · exfalso
      simp only [List.mem_singleton] at ht
      rw [ht] at htun
      exact htun pid hpid hmem
  · intro t ht pid' hpid' hmem'
    rw [List.mem_append] at ht
    rcases ht with ht | ht
    · obtain ⟨p, hppre, hpidp, hB⟩ := hOrder t ht pid' hpid' hmem'
      refine ⟨p, List.mem_append_left _ hppre, hpidp, ?_⟩
      rw [hfl] at hB
      rw [hfl']
      exact BeforeIn_insert hB
    · simp only [List.mem_singleton] at ht
      rw [ht] at hpid'
      rw [hpid'] at hpid
      injection hpid with hpp
      refine ⟨p0, List.mem_append_left _ hp0pre, by rw [hp0id]; exact hpp.symm, ?_⟩
      rw [ht]
      exact ⟨A, (s, dx + 1) :: B, hfl', ⟨dx, hp0A⟩, ⟨dx + 1, by simp⟩⟩

/-- One linking step, unresolvable parent: the symbol becomes a root. -/
theorem hier_step_root (ids : List String) (pre : List Symbol) (s : Symbol) (F : SNForest)
    (hunres : ∀ pid, s.parent = some pid → pid ∉ ids)
    (hsid : s.id ∈ ids)
    (hnoforward : ∀ t ∈ pre, t.parent ≠ some s.id)
    (hsub : ∀ x ∈ pre.map Symbol.id, x ∈ ids)
    (hinv : HierInv ids pre F) :
    HierInv ids (pre ++ [s]) (snocF F (.mk s .nil)) := by
  obtain ⟨hIds, hMs, hCS, hDepth, hRoots, hOrder⟩ := hinv
  have hFL' : flattenForest 0 (snocF F (.mk s .nil))
      = flattenForest 0 F ++ [(s, 0)] := by
    rw [snocF_flatten]
    rfl
  refine ⟨?_, ?_, ?_, ?_, ?_, ?_⟩
  · rw [snocF_ids, List.map_append]
    exact hIds.append (List.Perm.refl _)
  · rw [snocF_ms, hMs]
    rw [show msOfNode (.mk s .nil) = ({s} : Multiset Symbol) from rfl]
    rw [← Multiset.coe_singleton, Multiset.coe_add]
  · intro x hx
    rw [snocF_childSyms, childSymsN_leaf, hCS x hx, List.filter_append]
    have hps : (s.parent == some x) = false := by
      cases hsp : s.parent with
      | none => rfl
      | some q =>
        have hq := hunres q hsp
        have hqx : q ≠ x := fun hc => hq (hc ▸ hx)
        simp [hqx]
    simp [List.filter_cons, hps]
  · intro s' p' ds dp hs' hp' hpar
    rw [hFL'] at hs' hp'
    simp only [List.mem_append, List.mem_singleton] at hs' hp'
    rcases hs' with hs' | hs' <;> rcases hp' with hp' | hp'
    · exact hDepth s' p' ds dp hs' hp' hpar
    · exfalso
      injection hp' with hp1 hp2
      rw [hp1] at hpar
      exact hnoforward s' (flatten_mem_syms hMs hs') hpar
    · exfalso
      injection hs' with hs1 hs2
      rw [hs1] at hpar
      have hp'pre : p' ∈ pre := flatten_mem_syms hMs hp'
      exact hunres p'.id hpar (hsub p'.id (List.mem_map_of_mem Symbol.id hp'pre))
    · exfalso
      injection hs' with hs1 hs2
      injection hp' with hp1 hp2
      rw [hs1, hp1] at hpar
      exact hunres s.id hpar hsid
  · intro t ht htun
    rw [List.mem_append] at ht
    rw [hFL']
    rcases ht with ht | ht
    · exact List.mem_append_left _ (hRoots t ht htun)
    · simp only [List.mem_singleton] at ht
      rw [ht]
      simp
  · intro t ht pid' hpid' hmem'
    rw [List.mem_append] at ht
    rcases ht with ht | ht
    · obtain ⟨p, hppre, hpidp, hB⟩ := hOrder t ht pid' hpid' hmem'
      refine ⟨p, List.mem_append_left _ hppre, hpidp, ?_⟩
      rw [hFL']
      exact BeforeIn_snoc hB
    · exfalso
      simp only [List.mem_singleton] at ht
      rw [ht] at hpid'
      exact hunres pid' hpid' hmem'

theorem hierInv_nil (ids : List String) : HierInv ids [] .nil := by
  refine ⟨by simp [forestIds], rfl, ?_, ?_, ?_, ?_⟩
  · intro x hx
    simp [childSymsF]
  · intro s p ds dp hs hp
    simp [flattenForest] at hs
  · intro t ht
    simp at ht
  · intro t ht
    simp at ht

/-- Induction on the linking loop: provided the ids are distinct and every
parent reference that resolves in the batch points strictly backwards, each
step preserves the build invariant. -/
theorem build_go_master (l : List Symbol) (hnd : (l.map Symbol.id).Nodup)
    (hback : ∀ l1 t l2, l = l1 ++ t :: l2 → ∀ pid, t.parent = some pid →
      pid ∈ l.map Symbol.id → pid ∈ l1.map Symbol.id) :
    ∀ (rest pre : List Symbol) (F : SNForest), l = pre ++ rest →
      HierInv (l.map Symbol.id) pre F →
      HierInv (l.map Symbol.id) (pre ++ rest) (build_go (l.map Symbol.id) rest F) := by
  intro rest
  induction rest with
  | nil =>
    intro pre F heq hinv
    simpa [build_go] using hinv
  | cons s rest' ih =>
    intro pre F heq hinv
    have heq' : l = (pre ++ [s]) ++ rest' := by rw [heq]; simp
    have hsid : s.id ∈ l.map Symbol.id := by
      rw [heq]
      exact List.mem_map_of_mem Symbol.id (by simp)
    have hnd2 := hnd
    rw [heq, List.map_append, List.nodup_append] at hnd2
    have hnd_pre : (pre.map Symbol.id).Nodup := hnd2.1
    have hs_new : s.id ∉ pre.map Symbol.id := by
      intro hcmem
      exact hnd2.2.2 hcmem (by simp)
    have hsub : ∀ x ∈ pre.map Symbol.id, x ∈ l.map Symbol.id := by
      intro x hx
      rw [heq, List.map_append]
      exact List.mem_append_left _ hx
    have hnoforward : ∀ t ∈ pre, t.parent ≠ some s.id := by
      intro t ht hc
      obtain ⟨p1, p2, hsplit⟩ := List.append_of_mem ht
      have hsp2 : l = p1 ++ t :: (p2 ++ s :: rest') := by rw [heq, hsplit]; simp
      have hin := hback p1 t _ hsp2 s.id hc hsid
      have : s.id ∈ pre.map Symbol.id := by
        rw [hsplit, List.map_append]
        exact List.mem_append_left _ hin
      exact hs_new this
    cases hsp : s.parent with
    | some pid =>
      by_cases hc : pid ∈ l.map Symbol.id
      · have hcc : ((l.map Symbol.id).contains pid) = true := List.elem_iff.mpr hc
        have hgoal : build_go (l.map Symbol.id) (s :: rest') F
            = build_go (l.map Symbol.id) rest' (attachForest pid (.mk s .nil) F) := by
          simp only [build_go, hsp, hcc, if_true]
        rw [hgoal]
        have hback' : pid ∈ pre.map Symbol.id := hback pre s rest' heq pid hsp hc
        have hstep := hier_step_attach (l.map Symbol.id) pre s F pid hsp hc hback'
          hnd_pre hs_new hnoforward hinv
        have hres := ih (pre ++ [s]) _ heq' hstep
        simpa using hres
      · have hcc : ((l.map Symbol.id).contains pid) = false := by
          rw [Bool.eq_false_iff]
          intro hcon
          exact hc (List.elem_iff.mp hcon)
        have hgoal : build_go (l.map Symbol.id) (s :: rest') F
            = build_go (l.map Symbol.id) rest' (snocF F (.mk s .nil)) := by
          simp only [build_go, hsp, hcc, Bool.false_eq_true, if_false]
        rw [hgoal]
        have hunres : ∀ pid2, s.parent = some pid2 → pid2 ∉ l.map Symbol.id := by
          intro pid2 hpid2
          rw [hsp] at hpid2
          injection hpid2 with h1
          rw [← h1]
          exact hc
        have hstep := hier_step_root (l.map Symbol.id) pre s F hunres hsid
          hnoforward hsub hinv
        have hres := ih (pre ++ [s]) _ heq' hstep
        simpa using hres
    | none =>
      have hgoal : build_go (l.map Symbol.id) (s :: rest') F
          = build_go (l.map Symbol.id) rest' (snocF F (.mk s .nil)) := by
        simp only [build_go, hsp]
      rw [hgoal]
      have hunres : ∀ pid2, s.parent = some pid2 → pid2 ∉ l.map Symbol.id := by
        intro pid2 hpid2
        rw [hsp] at hpid2
        exact absurd hpid2 (by simp)
      have hstep := hier_step_root (l.map Symbol.id) pre s F hunres hsid
        hnoforward hsub hinv
      have hres := ih (pre ++ [s]) _ heq' hstep
      simpa using hres

/-- C9: for every symbol list with pairwise-distinct ids in which every
non-null `parent` field refers to the id of a symbol occurring strictly
earlier in the list, `flatten_tree (build_symbol_tree l)` contains every
input symbol exactly once; each symbol whose parent resolves in the batch
appears among that parent's children, with children kept in original list
order, at depth one greater than its parent; every symbol without a
resolvable parent is a root at depth 0; and every parent is emitted before
all of its descendants. -/
theorem claim9_hierarchy (l : List Symbol)
    (hnd : (l.map Symbol.id).Nodup)
    (hback : ∀ l1 t l2, l = l1 ++ t :: l2 → ∀ pid, t.parent = some pid →
      pid ∈ l1.map Symbol.id) :
    ((flatten_tree (build_symbol_tree l)).map Prod.fst).Perm l
    ∧ (∀ p ∈ l, childSymsF p.id (build_symbol_tree l)
        = l.filter (fun t => t.parent == some p.id))
    ∧ (∀ s p ds dp, (s, ds) ∈ flatten_tree (build_symbol_tree l) →
        (p, dp) ∈ flatten_tree (build_symbol_tree l) →
        s.parent = some p.id → ds = dp + 1)
    ∧ (∀ t ∈ l, (∀ pid, t.parent = some pid → pid ∉ l.map Symbol.id) →
        (t, 0) ∈ flatten_tree (build_symbol_tree l))
    ∧ (∀ p t, Desc l p t → BeforeIn (flatten_tree (build_symbol_tree l)) p t) := by
  have hback2 : ∀ l1 t l2, l = l1 ++ t :: l2 → ∀ pid, t.parent = some pid →
      pid ∈ l.map Symbol.id → pid ∈ l1.map Symbol.id :=
    fun l1 t l2 he pid hp _ => hback l1 t l2 he pid hp
  have hbt : build_symbol_tree l = build_go (l.map Symbol.id) l .nil := rfl
  have hinv := build_go_master l hnd hback2 l [] .nil (by simp) (hierInv_nil _)
  rw [List.nil_append] at hinv
  rw [hbt]
  obtain ⟨hIds, hMs, hCS, hDepth, hRoots, hOrder⟩ := hinv
  have hfl_ms : ((flatten_tree (build_go (l.map Symbol.id) l .nil)).map Prod.fst
      : Multiset Symbol) = ↑l := by
    rw [show flatten_tree (build_go (l.map Symbol.id) l .nil)
        = flattenForest 0 (build_go (l.map Symbol.id) l .nil) from rfl]
    rw [flattenForest_ms, hMs]
  have hperm : ((flatten_tree (build_go (l.map Symbol.id) l .nil)).map Prod.fst).Perm l :=
    Multiset.coe_eq_coe.mp hfl_ms
  have hfl_nd : ((flatten_tree (build_go (l.map Symbol.id) l .nil)).map Prod.fst).Nodup :=
    hperm.nodup_iff.mpr hnd.of_map
  refine ⟨hperm, ?_, ?_, ?_, ?_⟩
  · intro p hp
    exact hCS p.id (List.mem_map_of_mem Symbol.id hp)
  · intro s p ds dp hs hp hpar
    exact hDepth s p ds dp hs hp hpar
  · intro t ht htun
    exact hRoots t ht htun
  · intro p t hdesc
    induction hdesc with
    | parent hp ht hpar =>
      rename_i p1 s1
      obtain ⟨p2, hp2l, hp2id, hB⟩ := hOrder s1 ht p1.id hpar
        (List.mem_map_of_mem Symbol.id hp)
      exact (nodup_id_inj hnd hp2l hp hp2id) ▸ hB
    | trans h1 h2 ih1 ih2 =>
      exact BeforeIn_trans hfl_nd ih1 ih2

theorem claim9_witness :
    (l9.map Symbol.id).Nodup ∧ backRefsB l9 = true
    ∧ BeforeIn (flatten_tree (build_symbol_tree l9)) sym9a sym9b :=
  ⟨by decide, by decide,
    (claim9_hierarchy l9 (by decide) (backRefsB_spec (by decide))).2.2.2.2 sym9a sym9b
      (Desc.parent (by decide) (by decide) rfl)⟩

end JCM
